import Mathlib

/-!
# GhostComment core: shallow embedding and verification

This file embeds the core of the GhostComment pipeline (scanner, cleaner,
GitHub/GitLab review clients) as executable Lean definitions translated from
the JavaScript sources (`core/scanner.js`, `core/cleaner.js`,
`clients/github.js`, `clients/gitlab.js`, `models/config.js`), and proves or
refutes the frozen specification claims about them.

Modelling conventions:
* file contents, paths and lines are `List Char`; messages are `String`;
* the file system is a partial map from paths to byte contents; backup
  sidecar files are tracked as content snapshots owned by the clean run
  (the sources create them at fresh timestamped paths disjoint from the
  scanned tree);
* asynchronous I/O is sequentialised exactly as the sources sequence it
  (`await` chains; the scanner's 10-wide batches preserve file order and
  per-file isolation, so a sequential fold is observationally identical);
* HTTP traffic is an oracle mapping attempt numbers to responses;
* JS exceptions become `Except GCError`.
-/

namespace GhostComment

/-- JS `\s` / `trim` whitespace class (ECMA-262 WhiteSpace ∪ LineTerminator). -/
def isWs (c : Char) : Bool :=
  c = ' ' || c = '\t' || c = '\n' || c.val = 11 || c.val = 12 || c = '\r' ||
  c.val = 0xA0 || c.val = 0x1680 || (0x2000 ≤ c.val && c.val ≤ 0x200A) ||
  c.val = 0x2028 || c.val = 0x2029 || c.val = 0x202F || c.val = 0x205F ||
  c.val = 0x3000 || c.val = 0xFEFF

/-- Length of the maximal leading whitespace run of a line. -/
def wsRun : List Char → Nat
  | [] => 0
  | c :: t => if isWs c then wsRun t + 1 else 0

/-- A list consisting only of JS whitespace. -/
def wsOnly (l : List Char) : Bool := l.all isWs

/-- JS `String.prototype.trim` on a character list. -/
def trimList (l : List Char) : List Char :=
  ((l.dropWhile isWs).reverse.dropWhile isWs).reverse

/-- JS `String.prototype.includes` on character lists: `needle` occurs
contiguously inside `hay`. -/
def hasInfixL (needle : List Char) : List Char → Bool
  | [] => needle.isEmpty
  | c :: t => needle.isPrefixOf (c :: t) || hasInfixL needle t

/-- JS `String.prototype.includes`. -/
def strIncludes (hay needle : String) : Bool := hasInfixL needle.data hay.data

/-- JS `content.split('\n')`. -/
def splitNl : List Char → List (List Char)
  | [] => [[]]
  | c :: t =>
    if c = '\n' then [] :: splitNl t
    else
      match splitNl t with
      | [] => [[c]]
      | h :: r => (c :: h) :: r

/-- JS `lines.join('\n')`. -/
def joinNl : List (List Char) → List Char
  | [] => []
  | [l] => l
  | l :: r => l ++ '\n' :: joinNl r

/-- An ECMA-262 LineTerminator (LF, CR, LS, PS): the characters the regex
metacharacter `.` cannot match, since the source pattern has no `s` flag. -/
def isLineTerm (c : Char) : Bool :=
  c = '\n' || c = '\r' || c.val = 0x2028 || c.val = 0x2029

/-- One backtracking step of the regex `^\s*P\s*(.+)$` (from `scanner.js`):
try to anchor the literal prefix `p` at offset `i` of the line; on success the
inner `\s*` greedily eats whitespace of the remainder `S`, backtracking just
enough to leave `(.+)` at least one character.  Every captured character must
be matched by `.`, which cannot match a line terminator, and `$` (no `m`
flag) only matches at the very end of the string — so the attempt fails
whenever the candidate capture contains a line terminator: shorter whitespace
splits only prepend characters to the capture and cannot remove the
offending terminator, so a single candidate plus this check is exactly the
engine's backtracking outcome at this offset. -/
def tryAt (p line : List Char) (i : Nat) : Option (List Char) :=
  if p.isPrefixOf (line.drop i) then
    if (line.drop (i + p.length)).length = 0 then none
    else if ((line.drop (i + p.length)).drop
        (min (wsRun (line.drop (i + p.length)))
          ((line.drop (i + p.length)).length - 1))).any isLineTerm then none
    else some ((line.drop (i + p.length)).drop
      (min (wsRun (line.drop (i + p.length))) ((line.drop (i + p.length)).length - 1)))
  else none

/-- Backtracking of the leading `\s*`: offsets are tried longest-first, as a
JS regex engine does for a greedy quantifier. -/
def matchGhostAux (p line : List Char) : Nat → Option (List Char)
  | 0 => tryAt p line 0
  | i + 1 => (tryAt p line (i + 1)).orElse fun _ => matchGhostAux p line i

/-- JS `line.match(/^\s*P\s*(.+)$/)` restricted to its capture group: `none`
when the line does not match, `some cap` with the captured remainder
otherwise.  The leading `\s*` can consume at most the maximal leading
whitespace run of the line. -/
def matchGhost (p line : List Char) : Option (List Char) :=
  matchGhostAux p line (wsRun line)

/-! ## Data model (`models/comment.js`, `models/config.js`) -/

/-- `GhostCommentErrorType` from `models/comment.js`. -/
inductive GCErrorType where
  | configError | fileError | gitError | githubApiError | gitlabApiError
  | networkError | authError | rateLimitError
deriving DecidableEq, Repr

/-- `GhostCommentError`: the error taxonomy kind plus the human-readable
message.  The chained `cause` is diagnostic only and never drives control
flow, so it is not modelled.  (`type` is a Lean keyword, hence `etype`.) -/
structure GCError where
  etype : GCErrorType
  message : String
deriving DecidableEq, Repr

/-- `GhostComment` annotation value (`models/comment.js`).  (`prefix` is a
Lean keyword, hence `prefixStr`.) -/
structure Annotation where
  filePath : List Char
  lineNumber : Nat
  content : List Char
  prefixStr : List Char
  originalLine : List Char
deriving DecidableEq, Repr

/-- Scan configuration.  Glob patterns are opaque here: the scanner model
takes the resolved file set directly.  (`include` is a Lean keyword, hence
`includePatterns`/`excludePatterns`.) -/
structure GhostCommentConfig where
  prefixStr : List Char
  includePatterns : List String
  excludePatterns : List String
  failOnFound : Bool
deriving DecidableEq, Repr

/-- `CONFIG_VALIDATION.MAX_COMMENT_LENGTH` (`models/config.js`). -/
def MAX_COMMENT_LENGTH : Nat := 1000

/-- `CONFIG_VALIDATION.MAX_PREFIX_LENGTH`. -/
def MAX_PREFIX_LENGTH : Nat := 20

/-- `CONFIG_VALIDATION.MAX_INCLUDE_PATTERNS`. -/
def MAX_INCLUDE_PATTERNS : Nat := 50

/-- `CONFIG_VALIDATION.MAX_EXCLUDE_PATTERNS`. -/
def MAX_EXCLUDE_PATTERNS : Nat := 100

/-- `FILE_LIMITS.MAX_FILES`. -/
def MAX_FILES : Nat := 10000

/-- `RATE_LIMITS.MAX_RETRY_ATTEMPTS`. -/
def MAX_RETRY_ATTEMPTS : Nat := 3

/-- `RATE_LIMITS.RETRY_BASE_DELAY` (milliseconds). -/
def RETRY_BASE_DELAY : Nat := 1000

/-! ## Scanner (`core/scanner.js`)

File reading, the 10 MB size ceiling and glob resolution sit at the I/O
boundary: the model receives the resolved `(path, content)` list of the files
that were read successfully.  Per-file read failures are isolated by
`Promise.allSettled` exactly like per-file scan failures, which the model
does capture. -/

/-- The `lines.forEach` body of `scanFile`: match each line against
`^\s*<escaped-prefix>\s*(.+)$`, trim the capture, fail the whole file with a
`CONFIG_ERROR` when the trimmed content exceeds `MAX_COMMENT_LENGTH`,
otherwise record an annotation (1-based line number, raw original line).
`idx` is the 0-based index of the first line of `ls`. -/
def scanLines (p fpath : List Char) : List (List Char) → Nat → Except GCError (List Annotation)
  | [], _ => .ok []
  | line :: rest, idx =>
    match matchGhost p line with
    | none => scanLines p fpath rest (idx + 1)
    | some cap =>
      let c := trimList cap
      if MAX_COMMENT_LENGTH < c.length then
        .error ⟨.configError, "Comment too long"⟩
      else
        (scanLines p fpath rest (idx + 1)).map
          fun anns => ⟨fpath, idx + 1, c, p, line⟩ :: anns

/-- `scanFile`: split the content into lines and scan them.  `fpath` is the
path relative to the working directory, exactly what the source stores. -/
def scanFile (p fpath content : List Char) : Except GCError (List Annotation) :=
  scanLines p fpath (splitNl content) 0

/-- `validateScanConfig`: the configuration invariants checked before any
file I/O. -/
def validateScanConfig (cfg : GhostCommentConfig) : Except GCError Unit :=
  if cfg.prefixStr.isEmpty then
    .error ⟨.configError, "Comment prefix is required"⟩
  else if MAX_PREFIX_LENGTH < cfg.prefixStr.length then
    .error ⟨.configError, "Prefix too long"⟩
  else if cfg.includePatterns.isEmpty then
    .error ⟨.configError, "Include patterns are required"⟩
  else if MAX_INCLUDE_PATTERNS < cfg.includePatterns.length then
    .error ⟨.configError, "Too many include patterns"⟩
  else if MAX_EXCLUDE_PATTERNS < cfg.excludePatterns.length then
    .error ⟨.configError, "Too many exclude patterns"⟩
  else .ok ()

/-- `scanFiles`: validate, enforce the file-count ceiling, then scan the
resolved files.  Batches of 10 with `Promise.allSettled` preserve file order
and isolate per-file failures (a rejected file only logs a warning), so the
observable result is this sequential fold. -/
def scanFiles (cfg : GhostCommentConfig) (files : List (List Char × List Char)) :
    Except GCError (List Annotation) := do
  let _ ← validateScanConfig cfg
  if MAX_FILES < files.length then
    .error ⟨.fileError, "Too many files to process"⟩
  else
    .ok (files.foldl (fun acc f =>
      match scanFile cfg.prefixStr f.1 f.2 with
      | .ok cs => acc ++ cs
      | .error _ => acc) [])

/-- The per-file loop body of `countGhostComments`: `regex.test(line)` per
line of the file. -/
def countFile (p content : List Char) : Nat :=
  (splitNl content).countP fun l => (matchGhost p l).isSome

/-- `countGhostComments`: same validation and ceilings, counts matching lines
without materialising annotations; a failing file logs a warning and is
skipped, like in the scan. -/
def countGhostComments (cfg : GhostCommentConfig) (files : List (List Char × List Char)) :
    Except GCError Nat := do
  let _ ← validateScanConfig cfg
  if MAX_FILES < files.length then
    .error ⟨.fileError, "Too many files to process"⟩
  else
    .ok (files.foldl (fun acc f => acc + countFile cfg.prefixStr f.2) 0)

/-! ## Cleaner (`core/cleaner.js`)

The file system is a partial map from paths to contents.  A backup is the
snapshot of the original bytes held by the sidecar copy: `backup = none`
models `backupPath === ''` (no backup was made), `backup = some c` models a
backup file holding bytes `c`.  Restoring stats (mode/atime/mtime) is
best-effort metadata and outside the byte-content model. -/

/-- The modelled file system. -/
def FS : Type := List Char → Option (List Char)

/-- `fs.writeFile` / `fs.copyFile` onto `path`. -/
def fsUpdate (fs : FS) (fpath content : List Char) : FS :=
  fun q => if q = fpath then some content else fs q

/-- `CleanOptions` (`models/comment.js`). -/
structure CleanOptions where
  createBackups : Bool
  restoreOnError : Bool
  removeBackups : Bool
  dryRun : Bool
deriving DecidableEq, Repr

/-- `DEFAULT_CLEAN_OPTIONS`. -/
def DEFAULT_CLEAN_OPTIONS : CleanOptions :=
  { createBackups := true, restoreOnError := true, removeBackups := false, dryRun := false }

/-- `CleanedFile`: per-file success record. -/
structure CleanedFile where
  filePath : List Char
  backup : Option (List Char)
  commentsRemoved : Nat
deriving DecidableEq, Repr

/-- `CleanResult`. -/
structure CleanResult where
  filesProcessed : Nat
  commentsRemoved : Nat
  modifiedFiles : List (List Char)
  errorFiles : List (List Char)
  hasErrors : Bool
deriving DecidableEq, Repr

/-- First-occurrence order of the distinct file paths, as a JS `Map` built by
insertion preserves it. -/
def keysInOrder (cs : List Annotation) : List (List Char) :=
  cs.foldl (fun acc c => if acc.contains c.filePath then acc else acc ++ [c.filePath]) []

/-- Stable insertion step for the descending-by-line-number sort
(`(a, b) => b.lineNumber - a.lineNumber`, JS `sort` is stable). -/
def insertDesc (c : Annotation) : List Annotation → List Annotation
  | [] => [c]
  | d :: t => if d.lineNumber ≤ c.lineNumber then c :: d :: t else d :: insertDesc c t

/-- Stable descending sort by line number. -/
def sortDesc (cs : List Annotation) : List Annotation := cs.foldr insertDesc []

/-- `groupCommentsByFile`: group by path in insertion order, each group
sorted bottom-to-top. -/
def groupCommentsByFile (cs : List Annotation) : List (List Char × List Annotation) :=
  (keysInOrder cs).map fun k => (k, sortDesc (cs.filter fun c => c.filePath = k))

/-- The verification loop of `cleanFile`: each targeted 1-based line must
exist and its current text must equal the recorded `originalLine`; any
mismatch throws a `FILE_ERROR`.  On success the 0-based indices to remove
are returned. -/
def verifyComments (lines : List (List Char)) : List Annotation → Except GCError (List Nat)
  | [] => .ok []
  | c :: rest =>
    if c.lineNumber = 0 ∨ lines.length < c.lineNumber then
      .error ⟨.fileError, "Comment line is out of range"⟩
    else if lines.getD (c.lineNumber - 1) [] ≠ c.originalLine then
      .error ⟨.fileError, "Line has changed since scanning"⟩
    else
      (verifyComments lines rest).map fun idxs => (c.lineNumber - 1) :: idxs

/-- `lines.filter((_, index) => !linesToRemove.has(index))`. -/
def filterIdx (idxs : List Nat) (lines : List (List Char)) : List (List Char) :=
  lines.enum.filterMap fun x => if idxs.contains x.1 then none else some x.2

/-- `cleanFile`: stat the file (fails when absent), snapshot a backup when
`createBackups && !dryRun`, verify every targeted line, and only then — when
not a dry run — write the content with the targeted lines filtered out.  The
write is the only mutation of the target file, and it happens strictly after
verification, so an error leaves the file system untouched. -/
def cleanFile (opts : CleanOptions) (fs : FS) (fpath : List Char) (cs : List Annotation) :
    Except GCError (CleanedFile × FS) :=
  match fs fpath with
  | none => .error ⟨.fileError, "Failed to get file stats"⟩
  | some content =>
    let backup := if opts.createBackups && !opts.dryRun then some content else none
    let lines := splitNl content
    match verifyComments lines cs with
    | .error e => .error e
    | .ok idxs =>
      if opts.dryRun then
        .ok (⟨fpath, backup, cs.length⟩, fs)
      else
        .ok (⟨fpath, backup, cs.length⟩, fsUpdate fs fpath (joinNl (filterIdx idxs lines)))

/-- The per-file loop of `removeComments`: failures are collected in
`errorFiles` and do not stop the remaining files.  Returns cleaned-file
records, error paths, the summed removal count, and the resulting file
system. -/
def cleanLoop (opts : CleanOptions) :
    List (List Char × List Annotation) → FS →
    List CleanedFile × List (List Char) × Nat × FS
  | [], fs => ([], [], 0, fs)
  | (fpath, cs) :: rest, fs =>
    match cleanFile opts fs fpath cs with
    | .ok (cf, fs') =>
      let r := cleanLoop opts rest fs'
      (cf :: r.1, r.2.1, cf.commentsRemoved + r.2.2.1, r.2.2.2)
    | .error _ =>
      let r := cleanLoop opts rest fs
      (r.1, fpath :: r.2.1, r.2.2.1, r.2.2.2)

/-- The rollback loop: every cleaned file that has a backup is copied back
from it, in cleaning order. -/
def restoreAll (cfs : List CleanedFile) (fs : FS) : FS :=
  cfs.foldl (fun f cf =>
    match cf.backup with
    | some b => fsUpdate f cf.filePath b
    | none => f) fs

/-- `removeComments`: group, clean file by file, then — when any file failed
and `restoreOnError` is set and this is not a dry run — restore all cleaned
files from their backups and reset the removal counter.  Backup-file deletion
(`removeBackups`) touches only sidecar files and does not affect the modelled
tree. -/
def removeComments (cs : List Annotation) (opts : CleanOptions) (fs : FS) :
    CleanResult × FS :=
  if cs.isEmpty then
    (⟨0, 0, [], [], false⟩, fs)
  else
    let groups := groupCommentsByFile cs
    let r := cleanLoop opts groups fs
    let doRestore := !r.2.1.isEmpty && opts.restoreOnError && !opts.dryRun
    let fs2 := if doRestore then restoreAll r.1 r.2.2.2 else r.2.2.2
    (⟨groups.length, if doRestore then 0 else r.2.2.1,
      r.1.map (·.filePath), r.2.1, !r.2.1.isEmpty⟩, fs2)

/-! ## Review-platform clients (`clients/github.js`, `clients/gitlab.js`)

HTTP traffic is an oracle: for one annotation, `resp k` is what the `k`-th
attempt (1-based) of the single-comment post receives.  A non-2xx axios
error carries the response fields the classification code inspects; GitLab
message arrays are modelled after their `join(', ')`.  `setTimeout` delays
are collected in a list instead of being slept. -/

/-- The response fields of a failed HTTP attempt that the clients inspect. -/
structure ErrResponse where
  status : Nat
  statusText : String
  /-- `errorData.message`; `""` models an absent message (JS falsy). -/
  message : String
  /-- GitHub `errorData.errors`: `(field, code)` pairs. -/
  fieldErrors : List (String × String)
  /-- `x-ratelimit-reset` header; `""` models an absent header (JS falsy). -/
  resetTime : String
  /-- `retry-after` header; `""` models an absent header. -/
  retryAfter : String
deriving DecidableEq, Repr

/-- GitHub's `resetTime || retryAfter` rate-limit signal on a 403. -/
def hasRateHeaders (e : ErrResponse) : Bool :=
  !(e.resetTime = "" && e.retryAfter = "")

/-- Outcome of one HTTP attempt. `nonAxios` is a thrown value that is not an
axios error. -/
inductive HttpOutcome where
  | ok (data : String)
  | err (e : ErrResponse)
  | nonAxios
deriving DecidableEq, Repr

/-- `convertToAPIComments` element (identical in both clients): content is
wrapped in the machine-comment marker, `side` is fixed to `RIGHT`. -/
structure APIComment where
  filePath : String
  lineNumber : Nat
  content : String
deriving DecidableEq, Repr

/-- `convertToAPIComments` on one annotation. -/
def convertToAPIComment (c : Annotation) : APIComment :=
  ⟨String.mk c.filePath, c.lineNumber, "🧩 _" ++ String.mk c.content ++ "_"⟩

/-- GitHub's formatted fallback message: `HTTP <status>: <statusText>`, the
platform message when present, and the joined field-level errors. -/
def ghFormatMessage (e : ErrResponse) : String :=
  let base := "HTTP " ++ toString e.status ++ ": " ++ e.statusText
  let m1 := if e.message = "" then base else base ++ " - " ++ e.message
  if e.fieldErrors.isEmpty then m1
  else m1 ++ " (" ++ String.intercalate ", " (e.fieldErrors.map fun fe => fe.1 ++ ": " ++ fe.2) ++ ")"

/-- GitLab's formatted fallback message. -/
def glFormatMessage (e : ErrResponse) : String :=
  let base := "HTTP " ++ toString e.status ++ ": " ++ e.statusText
  if e.message = "" then base else base ++ " - " ++ e.message

/-- The "line not in diff" message both clients throw. -/
def notInDiffMessage (c : APIComment) : String :=
  "Line " ++ toString c.lineNumber ++ " not in diff for " ++ c.filePath

/-- `GitHubClient.postSingleComment`: classification of one attempt, with
recursive retry on 500/502/503/504 while `attempt < maxRetries`, backoff
delay `RETRY_BASE_DELAY * 2 ^ (attempt - 1)`.  Returns the final result and
the list of delays slept before retries. -/
def ghPostSingleComment (maxRetries : Nat) (c : APIComment) (resp : Nat → HttpOutcome)
    (attempt : Nat) : Except GCError String × List Nat :=
  match resp attempt with
  | .ok data => (.ok data, [])
  | .nonAxios => (.error ⟨.networkError, "Network error while posting comment"⟩, [])
  | .err e =>
    if e.status = 422 then
      (.error ⟨.githubApiError, notInDiffMessage c⟩, [])
    else if e.status = 403 && hasRateHeaders e then
      (.error ⟨.rateLimitError, "GitHub API rate limit exceeded. Reset at: " ++
        (if e.resetTime = "" then "unknown" else e.resetTime)⟩, [])
    else if e.status = 401 then
      (.error ⟨.authError, "GitHub token is invalid or expired"⟩, [])
    else if h : attempt < maxRetries ∧
        (e.status = 500 ∨ e.status = 502 ∨ e.status = 503 ∨ e.status = 504) then
      let r := ghPostSingleComment maxRetries c resp (attempt + 1)
      (r.1, RETRY_BASE_DELAY * 2 ^ (attempt - 1) :: r.2)
    else
      (.error ⟨.githubApiError, ghFormatMessage e⟩, [])
termination_by maxRetries - attempt
decreasing_by omega

/-- GitLab's 400-classification: the (joined) message, defaulted to
`Bad request`, mentions `line` or `position`. -/
def glIsLineNotInDiff (e : ErrResponse) : Bool :=
  let em := if e.message = "" then "Bad request" else e.message
  strIncludes em "line" || strIncludes em "position"

/-- `GitLabClient.postSingleDiscussion`: same retry scheme, with GitLab's
classification (400 line/position → not-in-diff, 429 → rate limit,
401/403 → auth). -/
def glPostSingleDiscussion (maxRetries : Nat) (c : APIComment) (resp : Nat → HttpOutcome)
    (attempt : Nat) : Except GCError String × List Nat :=
  match resp attempt with
  | .ok data => (.ok data, [])
  | .nonAxios => (.error ⟨.networkError, "Network error while posting discussion"⟩, [])
  | .err e =>
    if e.status = 400 && glIsLineNotInDiff e then
      (.error ⟨.gitlabApiError, notInDiffMessage c⟩, [])
    else if e.status = 429 then
      (.error ⟨.rateLimitError, "GitLab API rate limit exceeded"⟩, [])
    else if e.status = 401 then
      (.error ⟨.authError, "GitLab token is invalid or expired"⟩, [])
    else if e.status = 403 then
      (.error ⟨.authError, "Insufficient permissions to post to this merge request"⟩, [])
    else if h : attempt < maxRetries ∧
        (e.status = 500 ∨ e.status = 502 ∨ e.status = 503 ∨ e.status = 504) then
      let r := glPostSingleDiscussion maxRetries c resp (attempt + 1)
      (r.1, RETRY_BASE_DELAY * 2 ^ (attempt - 1) :: r.2)
    else
      (.error ⟨.gitlabApiError, glFormatMessage e⟩, [])
termination_by maxRetries - attempt
decreasing_by omega

/-- An entry of `result.errors`: the original annotation, the message, and
the error-taxonomy code. -/
structure PostErrorEntry where
  comment : Annotation
  errMessage : String
  code : GCErrorType
deriving DecidableEq, Repr

/-- `GitHubCommentResult` / GitLab's result record. -/
structure PostCommentsResult where
  posted : Nat
  failed : Nat
  skipped : Nat
  success : List String
  errors : List PostErrorEntry
deriving DecidableEq, Repr

/-- The empty result both clients start from (and return for an empty
annotation list). -/
def emptyPostResult : PostCommentsResult := ⟨0, 0, 0, [], []⟩

/-- The `try`/`catch` body of the posting loops, identical in both clients:
a success increments `posted`; a thrown error whose message includes
`not in diff` increments `skipped`; any other error increments `failed` and
records an error entry. -/
def classifyAndAdd (res : PostCommentsResult) (c : Annotation)
    (outcome : Except GCError String) : PostCommentsResult :=
  match outcome with
  | .ok data =>
    { res with posted := res.posted + 1, success := res.success ++ [data] }
  | .error e =>
    if strIncludes e.message "not in diff" then
      { res with skipped := res.skipped + 1 }
    else
      { res with failed := res.failed + 1,
                 errors := res.errors ++ [⟨c, e.message, e.etype⟩] }

/-- The sequential posting loop over the annotations; `single i c` is the
final outcome of the single-post (with retries) for the `i`-th annotation.
The fixed inter-request delay does not affect the result. -/
def postLoop (single : Nat → Annotation → Except GCError String) :
    List Annotation → Nat → PostCommentsResult → PostCommentsResult
  | [], _, res => res
  | c :: rest, i, res => postLoop single rest (i + 1) (classifyAndAdd res c (single i c))

/-- The final outcome of the GitHub single-post (with retries) for the
`i`-th annotation, under the response oracle `resps`. -/
def ghSingle (resps : Nat → Nat → HttpOutcome) (i : Nat) (c : Annotation) :
    Except GCError String :=
  (ghPostSingleComment MAX_RETRY_ATTEMPTS (convertToAPIComment c) (resps i) 1).1

/-- The final outcome of the GitLab single-post for the `i`-th annotation. -/
def glSingle (resps : Nat → Nat → HttpOutcome) (i : Nat) (c : Annotation) :
    Except GCError String :=
  (glPostSingleDiscussion MAX_RETRY_ATTEMPTS (convertToAPIComment c) (resps i) 1).1

/-- `GitHubClient.postReviewComments` over an already-resolved context
(`commitSha` present, so no PR lookup is needed): empty input short-circuits,
otherwise every annotation is posted sequentially. -/
def ghPostReviewComments (cs : List Annotation) (resps : Nat → Nat → HttpOutcome) :
    PostCommentsResult :=
  if cs.isEmpty then emptyPostResult
  else postLoop (ghSingle resps) cs 0 emptyPostResult

/-- `GitLabClient.postDiscussions` over an already-resolved merge request. -/
def glPostDiscussions (cs : List Annotation) (resps : Nat → Nat → HttpOutcome) :
    PostCommentsResult :=
  if cs.isEmpty then emptyPostResult
  else postLoop (glSingle resps) cs 0 emptyPostResult

/-! ## Proof layer: outcome classification of the posting loops -/

/-- Outcome tallied under `posted`. -/
def isPostedOutcome (o : Except GCError String) : Bool :=
  match o with
  | .ok _ => true
  | .error _ => false

/-- Outcome tallied under `skipped`. -/
def isSkippedOutcome (o : Except GCError String) : Bool :=
  match o with
  | .ok _ => false
  | .error e => strIncludes e.message "not in diff"

/-- Outcome tallied under `failed`. -/
def isFailedOutcome (o : Except GCError String) : Bool :=
  match o with
  | .ok _ => false
  | .error e => !strIncludes e.message "not in diff"

/-- The single-post outcomes of the annotations, in submission order,
starting at loop index `i`. -/
def outcomesFrom (single : Nat → Annotation → Except GCError String) :
    List Annotation → Nat → List (Except GCError String)
  | [], _ => []
  | c :: rest, i => single i c :: outcomesFrom single rest (i + 1)

/-- The error entries the posting loop accumulates, starting at index `i`. -/
def errorEntriesFrom (single : Nat → Annotation → Except GCError String) :
    List Annotation → Nat → List PostErrorEntry
  | [], _ => []
  | c :: rest, i =>
    (match single i c with
     | .ok _ => []
     | .error e =>
       if strIncludes e.message "not in diff" then [] else [⟨c, e.message, e.etype⟩]) ++
    errorEntriesFrom single rest (i + 1)

theorem outcomesFrom_length (single) (cs : List Annotation) (i : Nat) :
    (outcomesFrom single cs i).length = cs.length := by
  induction cs generalizing i with
  | nil => rfl
  | cons c rest ih => simp [outcomesFrom, ih]

theorem classifyAndAdd_posted (res : PostCommentsResult) (c : Annotation) (o) :
    (classifyAndAdd res c o).posted = res.posted + (if isPostedOutcome o then 1 else 0) := by
  cases o with
  | ok d => simp [classifyAndAdd, isPostedOutcome]
  | error e =>
    simp only [classifyAndAdd, isPostedOutcome]
    rcases Bool.dichotomy (strIncludes e.message "not in diff") with h | h <;> simp [h]

theorem classifyAndAdd_skipped (res : PostCommentsResult) (c : Annotation) (o) :
    (classifyAndAdd res c o).skipped = res.skipped + (if isSkippedOutcome o then 1 else 0) := by
  cases o with
  | ok d => simp [classifyAndAdd, isSkippedOutcome]
  | error e =>
    simp only [classifyAndAdd, isSkippedOutcome]
    rcases Bool.dichotomy (strIncludes e.message "not in diff") with h | h <;> simp [h]

theorem classifyAndAdd_failed (res : PostCommentsResult) (c : Annotation) (o) :
    (classifyAndAdd res c o).failed = res.failed + (if isFailedOutcome o then 1 else 0) := by
  cases o with
  | ok d => simp [classifyAndAdd, isFailedOutcome]
  | error e =>
    simp only [classifyAndAdd, isFailedOutcome]
    rcases Bool.dichotomy (strIncludes e.message "not in diff") with h | h <;> simp [h]

theorem classifyAndAdd_errors (res : PostCommentsResult) (c : Annotation) (o) :
    (classifyAndAdd res c o).errors = res.errors ++
      (match o with
       | .ok _ => []
       | .error e =>
         if strIncludes e.message "not in diff" then [] else [⟨c, e.message, e.etype⟩]) := by
  cases o with
  | ok d => simp [classifyAndAdd]
  | error e =>
    simp only [classifyAndAdd]
    rcases Bool.dichotomy (strIncludes e.message "not in diff") with h | h <;> simp [h]

theorem postLoop_posted (single) (cs : List Annotation) (i : Nat) (res) :
    (postLoop single cs i res).posted =
      res.posted + (outcomesFrom single cs i).countP isPostedOutcome := by
  induction cs generalizing i res with
  | nil => simp [postLoop, outcomesFrom]
  | cons c rest ih =>
    simp only [postLoop, outcomesFrom, List.countP_cons, ih, classifyAndAdd_posted]
    split <;> omega

theorem postLoop_skipped (single) (cs : List Annotation) (i : Nat) (res) :
    (postLoop single cs i res).skipped =
      res.skipped + (outcomesFrom single cs i).countP isSkippedOutcome := by
  induction cs generalizing i res with
  | nil => simp [postLoop, outcomesFrom]
  | cons c rest ih =>
    simp only [postLoop, outcomesFrom, List.countP_cons, ih, classifyAndAdd_skipped]
    split <;> omega

theorem postLoop_failed (single) (cs : List Annotation) (i : Nat) (res) :
    (postLoop single cs i res).failed =
      res.failed + (outcomesFrom single cs i).countP isFailedOutcome := by
  induction cs generalizing i res with
  | nil => simp [postLoop, outcomesFrom]
  | cons c rest ih =>
    simp only [postLoop, outcomesFrom, List.countP_cons, ih, classifyAndAdd_failed]
    split <;> omega

theorem postLoop_errors (single) (cs : List Annotation) (i : Nat) (res) :
    (postLoop single cs i res).errors = res.errors ++ errorEntriesFrom single cs i := by
  induction cs generalizing i res with
  | nil => simp [postLoop, errorEntriesFrom]
  | cons c rest ih =>
    simp only [postLoop, errorEntriesFrom, ih, classifyAndAdd_errors]
    simp [List.append_assoc]

/-- Every outcome is tallied by exactly one of the three predicates. -/
theorem outcome_trichotomy (o : Except GCError String) :
    (if isPostedOutcome o then 1 else 0) + (if isSkippedOutcome o then 1 else 0) +
      (if isFailedOutcome o then 1 else 0) = 1 := by
  cases o with
  | ok d => simp [isPostedOutcome, isSkippedOutcome, isFailedOutcome]
  | error e =>
    simp only [isPostedOutcome, isSkippedOutcome, isFailedOutcome]
    rcases Bool.dichotomy (strIncludes e.message "not in diff") with h | h <;> simp [h]

theorem countP_trichotomy (os : List (Except GCError String)) :
    os.countP isPostedOutcome + os.countP isSkippedOutcome + os.countP isFailedOutcome =
      os.length := by
  induction os with
  | nil => simp
  | cons o rest ih =>
    simp only [List.countP_cons, List.length_cons]
    have := outcome_trichotomy o
    omega

/-! ## Substring lemmas for `includes` classification -/

theorem hasInfixL_iff (n l : List Char) :
    hasInfixL n l = true ↔ ∃ s t, l = s ++ n ++ t := by
  induction l with
  | nil =>
    simp only [hasInfixL, List.isEmpty_iff]
    constructor
    · rintro rfl
      exact ⟨[], [], rfl⟩
    · rintro ⟨s, t, h⟩
      rcases List.append_eq_nil.mp h.symm with ⟨h1, h2⟩
      exact (List.append_eq_nil.mp h1).2
  | cons c t ih =>
    simp only [hasInfixL, Bool.or_eq_true, List.isPrefixOf_iff_prefix, ih]
    constructor
    · rintro (⟨r, hr⟩ | ⟨s, u, rfl⟩)
      · exact ⟨[], r, by simp [hr]⟩
      · exact ⟨c :: s, u, rfl⟩
    · rintro ⟨s, u, h⟩
      cases s with
      | nil =>
        left
        exact ⟨u, by simpa using h.symm⟩
      | cons s0 s' =>
        right
        simp only [List.cons_append] at h
        injection h with h1 h2
        exact ⟨s', u, h2⟩

theorem hasInfixL_of_append (n s t : List Char) :
    hasInfixL n (s ++ n ++ t) = true :=
  (hasInfixL_iff n _).mpr ⟨s, t, rfl⟩

/-- `"Line <n> not in diff for <path>"` always includes `"not in diff"`. -/
theorem notInDiffMessage_includes (c : APIComment) :
    strIncludes (notInDiffMessage c) "not in diff" = true := by
  have h : (notInDiffMessage c).data =
      ("Line " ++ toString c.lineNumber ++ " ").data ++ "not in diff".data ++
        (" for " ++ c.filePath).data := by
    simp only [notInDiffMessage, String.data_append]
    simp
  unfold strIncludes
  rw [h]
  exact hasInfixL_of_append _ _ _

/-! ## Post-run counter characterization -/

theorem postRun_posted (single : Nat → Annotation → Except GCError String)
    (cs : List Annotation) :
    (if cs.isEmpty then emptyPostResult else postLoop single cs 0 emptyPostResult).posted =
      (outcomesFrom single cs 0).countP isPostedOutcome := by
  cases cs with
  | nil => rfl
  | cons c rest => simpa [emptyPostResult] using postLoop_posted single (c :: rest) 0 emptyPostResult

theorem postRun_skipped (single : Nat → Annotation → Except GCError String)
    (cs : List Annotation) :
    (if cs.isEmpty then emptyPostResult else postLoop single cs 0 emptyPostResult).skipped =
      (outcomesFrom single cs 0).countP isSkippedOutcome := by
  cases cs with
  | nil => rfl
  | cons c rest => simpa [emptyPostResult] using postLoop_skipped single (c :: rest) 0 emptyPostResult

theorem postRun_failed (single : Nat → Annotation → Except GCError String)
    (cs : List Annotation) :
    (if cs.isEmpty then emptyPostResult else postLoop single cs 0 emptyPostResult).failed =
      (outcomesFrom single cs 0).countP isFailedOutcome := by
  cases cs with
  | nil => rfl
  | cons c rest => simpa [emptyPostResult] using postLoop_failed single (c :: rest) 0 emptyPostResult

theorem postRun_errors (single : Nat → Annotation → Except GCError String)
    (cs : List Annotation) :
    (if cs.isEmpty then emptyPostResult else postLoop single cs 0 emptyPostResult).errors =
      errorEntriesFrom single cs 0 := by
  cases cs with
  | nil => rfl
  | cons c rest => simpa [emptyPostResult] using postLoop_errors single (c :: rest) 0 emptyPostResult

theorem postRun_sum (single : Nat → Annotation → Except GCError String)
    (cs : List Annotation) :
    (if cs.isEmpty then emptyPostResult else postLoop single cs 0 emptyPostResult).posted +
    (if cs.isEmpty then emptyPostResult else postLoop single cs 0 emptyPostResult).failed +
    (if cs.isEmpty then emptyPostResult else postLoop single cs 0 emptyPostResult).skipped =
      cs.length := by
  rw [postRun_posted, postRun_failed, postRun_skipped, ← outcomesFrom_length single cs 0]
  have := countP_trichotomy (outcomesFrom single cs 0)
  omega

/-- **C3.**  For every post run of either platform client on any submitted
annotation list, `posted + failed + skipped` equals the number of submitted
annotations, and each submitted annotation's outcome is tallied by exactly
one of the three counters (`posted` counts exactly the successful outcomes,
`skipped` exactly the "not in diff" errors, `failed` exactly the remaining
errors). -/
theorem claim_C3 (cs : List Annotation) (ghResps glResps : Nat → Nat → HttpOutcome) :
    ((ghPostReviewComments cs ghResps).posted + (ghPostReviewComments cs ghResps).failed +
        (ghPostReviewComments cs ghResps).skipped = cs.length ∧
      (ghPostReviewComments cs ghResps).posted =
        (outcomesFrom (ghSingle ghResps) cs 0).countP isPostedOutcome ∧
      (ghPostReviewComments cs ghResps).skipped =
        (outcomesFrom (ghSingle ghResps) cs 0).countP isSkippedOutcome ∧
      (ghPostReviewComments cs ghResps).failed =
        (outcomesFrom (ghSingle ghResps) cs 0).countP isFailedOutcome) ∧
    ((glPostDiscussions cs glResps).posted + (glPostDiscussions cs glResps).failed +
        (glPostDiscussions cs glResps).skipped = cs.length ∧
      (glPostDiscussions cs glResps).posted =
        (outcomesFrom (glSingle glResps) cs 0).countP isPostedOutcome ∧
      (glPostDiscussions cs glResps).skipped =
        (outcomesFrom (glSingle glResps) cs 0).countP isSkippedOutcome ∧
      (glPostDiscussions cs glResps).failed =
        (outcomesFrom (glSingle glResps) cs 0).countP isFailedOutcome) := by
  unfold ghPostReviewComments glPostDiscussions
  exact ⟨⟨postRun_sum _ cs, postRun_posted _ cs, postRun_skipped _ cs, postRun_failed _ cs⟩,
         ⟨postRun_sum _ cs, postRun_posted _ cs, postRun_skipped _ cs, postRun_failed _ cs⟩⟩

/-! ## Authentication failure (HTTP 401) behaviour -/

/-- A 401 response makes the GitHub single-post raise `AUTH_ERROR` at once:
no retry is attempted (the delay list is empty). -/
theorem ghPostSingleComment_401 (mr : Nat) (c : APIComment) (resp : Nat → HttpOutcome)
    (attempt : Nat) (e : ErrResponse) (he : resp attempt = .err e) (h : e.status = 401) :
    ghPostSingleComment mr c resp attempt =
      (.error ⟨.authError, "GitHub token is invalid or expired"⟩, []) := by
  rw [ghPostSingleComment, he]
  simp [h]

/-- A 401 response makes the GitLab single-post raise `AUTH_ERROR` at once. -/
theorem glPostSingleDiscussion_401 (mr : Nat) (c : APIComment) (resp : Nat → HttpOutcome)
    (attempt : Nat) (e : ErrResponse) (he : resp attempt = .err e) (h : e.status = 401) :
    glPostSingleDiscussion mr c resp attempt =
      (.error ⟨.authError, "GitLab token is invalid or expired"⟩, []) := by
  rw [glPostSingleDiscussion, he]
  simp [h, glIsLineNotInDiff]

/-- An annotation whose single-post outcome is an error not mentioning
`not in diff` shows up as an error entry of the run. -/
theorem errorEntriesFrom_mem (single : Nat → Annotation → Except GCError String)
    (cs : List Annotation) (i0 i : Nat) (hi : i < cs.length) (e : GCError)
    (he : single (i0 + i) cs[i] = .error e)
    (hm : strIncludes e.message "not in diff" = false) :
    (⟨cs[i], e.message, e.etype⟩ : PostErrorEntry) ∈ errorEntriesFrom single cs i0 := by
  induction cs generalizing i0 i with
  | nil => simp at hi
  | cons c rest ih =>
    cases i with
    | zero =>
      simp only [Nat.add_zero, List.getElem_cons_zero] at he ⊢
      simp only [errorEntriesFrom, he, hm]
      simp
    | succ j =>
      simp only [List.getElem_cons_succ] at he ⊢
      refine List.mem_append_right _ ?_
      have hj : j < rest.length := by simpa using Nat.lt_of_succ_lt_succ hi
      have he' : single (i0 + 1 + j) rest[j] = .error e := by
        rw [show i0 + 1 + j = i0 + (j + 1) by omega]
        exact he
      exact ih (i0 + 1) j hj he'

/-- Fixture annotations for concrete scenarios. -/
def annA : Annotation := ⟨"a.ts".data, 3, "remove me".data, "//".data, "// remove me".data⟩

/-- Second fixture annotation. -/
def annB : Annotation :=
  ⟨"a.ts".data, 9, "keep this too".data, "//".data, "// keep this too".data⟩

/-- A 401 response. -/
def resp401 : ErrResponse := ⟨401, "Unauthorized", "", [], "", ""⟩

/-- Oracle: the first annotation draws a 401, every other one succeeds. -/
def oracle401 : Nat → Nat → HttpOutcome :=
  fun i _ => if i = 0 then .err resp401 else .ok "cid"

/-- **C4, counterexample.**  On a two-annotation GitHub run where the first
attempt receives a 401, the post operation does not fail as a whole: the
second annotation is still attempted and posted (`posted = 1`), the first is
merely counted as failed with an `AUTH_ERROR` entry — contradicting "the
entire post operation immediately fails with an AuthError (no further
annotations are attempted)". -/
theorem claim_C4_counterexample :
    ghPostReviewComments [annA, annB] oracle401 =
      { posted := 1, failed := 1, skipped := 0, success := ["cid"],
        errors := [⟨annA, "GitHub token is invalid or expired", .authError⟩] } := by
  have h0 : ghSingle oracle401 0 annA =
      .error ⟨.authError, "GitHub token is invalid or expired"⟩ := by
    rw [ghSingle, ghPostSingleComment_401 _ _ _ _ resp401 rfl rfl]
  have h1 : ghSingle oracle401 1 annB = .ok "cid" := by
    rw [ghSingle, ghPostSingleComment]
    simp [oracle401]
  have hninc : strIncludes "GitHub token is invalid or expired" "not in diff" = false := by
    decide
  simp [ghPostReviewComments, postLoop, classifyAndAdd, h0, h1, hninc, emptyPostResult]

/-- **C4, amended.**  For either platform client: a 401 on a single-comment
attempt raises an `AuthError` immediately and is not retried (the delay list
is empty), but the outer posting loop catches it like any other error: the
annotation is recorded as `failed` with an `AUTH_ERROR` error entry and the
loop continues with the remaining annotations — the run still returns a
result tallying every submitted annotation. -/
theorem claim_C4 (cs : List Annotation) (resps : Nat → Nat → HttpOutcome) (i : Nat)
    (hi : i < cs.length) (e : ErrResponse) (he : resps i 1 = .err e)
    (h401 : e.status = 401) :
    (ghPostSingleComment MAX_RETRY_ATTEMPTS (convertToAPIComment cs[i]) (resps i) 1 =
        (.error ⟨.authError, "GitHub token is invalid or expired"⟩, []) ∧
      (⟨cs[i], "GitHub token is invalid or expired", .authError⟩ : PostErrorEntry) ∈
        (ghPostReviewComments cs resps).errors ∧
      (ghPostReviewComments cs resps).posted + (ghPostReviewComments cs resps).failed +
        (ghPostReviewComments cs resps).skipped = cs.length) ∧
    (glPostSingleDiscussion MAX_RETRY_ATTEMPTS (convertToAPIComment cs[i]) (resps i) 1 =
        (.error ⟨.authError, "GitLab token is invalid or expired"⟩, []) ∧
      (⟨cs[i], "GitLab token is invalid or expired", .authError⟩ : PostErrorEntry) ∈
        (glPostDiscussions cs resps).errors ∧
      (glPostDiscussions cs resps).posted + (glPostDiscussions cs resps).failed +
        (glPostDiscussions cs resps).skipped = cs.length) := by
  have hgh := ghPostSingleComment_401 MAX_RETRY_ATTEMPTS (convertToAPIComment cs[i])
    (resps i) 1 e he h401
  have hgl := glPostSingleDiscussion_401 MAX_RETRY_ATTEMPTS (convertToAPIComment cs[i])
    (resps i) 1 e he h401
  refine ⟨⟨hgh, ?_, ?_⟩, ⟨hgl, ?_, ?_⟩⟩
  · rw [ghPostReviewComments, postRun_errors]
    have hs : ghSingle resps i cs[i] =
        .error ⟨.authError, "GitHub token is invalid or expired"⟩ := by
      rw [ghSingle, hgh]
    exact errorEntriesFrom_mem (ghSingle resps) cs 0 i hi _ (by simpa using hs) (by decide)
  · rw [ghPostReviewComments]
    exact postRun_sum _ cs
  · rw [glPostDiscussions, postRun_errors]
    have hs : glSingle resps i cs[i] =
        .error ⟨.authError, "GitLab token is invalid or expired"⟩ := by
      rw [glSingle, hgl]
    exact errorEntriesFrom_mem (glSingle resps) cs 0 i hi _ (by simpa using hs) (by decide)
  · rw [glPostDiscussions]
    exact postRun_sum _ cs

/-- **C4, witness.**  The amended theorem applied to the concrete
two-annotation run. -/
theorem claim_C4_witness :
    (ghPostSingleComment MAX_RETRY_ATTEMPTS (convertToAPIComment ([annA, annB])[0])
        (oracle401 0) 1 = (.error ⟨.authError, "GitHub token is invalid or expired"⟩, []) ∧
      (⟨([annA, annB])[0], "GitHub token is invalid or expired", .authError⟩ : PostErrorEntry) ∈
        (ghPostReviewComments [annA, annB] oracle401).errors ∧
      (ghPostReviewComments [annA, annB] oracle401).posted +
        (ghPostReviewComments [annA, annB] oracle401).failed +
        (ghPostReviewComments [annA, annB] oracle401).skipped = 2) ∧
    (glPostSingleDiscussion MAX_RETRY_ATTEMPTS (convertToAPIComment ([annA, annB])[0])
        (oracle401 0) 1 = (.error ⟨.authError, "GitLab token is invalid or expired"⟩, []) ∧
      (⟨([annA, annB])[0], "GitLab token is invalid or expired", .authError⟩ : PostErrorEntry) ∈
        (glPostDiscussions [annA, annB] oracle401).errors ∧
      (glPostDiscussions [annA, annB] oracle401).posted +
        (glPostDiscussions [annA, annB] oracle401).failed +
        (glPostDiscussions [annA, annB] oracle401).skipped = 2) :=
  claim_C4 [annA, annB] oracle401 0 (by decide) resp401 rfl rfl

/-! ## Transient-error retry behaviour -/

/-- Exhausting transient errors on GitHub: with `maxRetries = 3` and every
attempt answering 500/502/503/504, the post is attempted 3 times — two
retries, with backoff delays `base * 2^0` then `base * 2^1` — and then fails
with the formatted API error. -/
theorem ghPostSingleComment_transient_exhaust (c : APIComment) (resp : Nat → HttpOutcome)
    (e : ErrResponse)
    (hst : e.status = 500 ∨ e.status = 502 ∨ e.status = 503 ∨ e.status = 504)
    (hresp : ∀ k, resp k = .err e) :
    ghPostSingleComment 3 c resp 1 =
      (.error ⟨.githubApiError, ghFormatMessage e⟩,
       [RETRY_BASE_DELAY * 2 ^ 0, RETRY_BASE_DELAY * 2 ^ 1]) := by
  rcases hst with h | h | h | h <;>
  · rw [ghPostSingleComment, hresp 1]
    rw [ghPostSingleComment, hresp 2]
    rw [ghPostSingleComment, hresp 3]
    simp [h]

/-- Exhausting transient errors on GitLab. -/
theorem glPostSingleDiscussion_transient_exhaust (c : APIComment) (resp : Nat → HttpOutcome)
    (e : ErrResponse)
    (hst : e.status = 500 ∨ e.status = 502 ∨ e.status = 503 ∨ e.status = 504)
    (hresp : ∀ k, resp k = .err e) :
    glPostSingleDiscussion 3 c resp 1 =
      (.error ⟨.gitlabApiError, glFormatMessage e⟩,
       [RETRY_BASE_DELAY * 2 ^ 0, RETRY_BASE_DELAY * 2 ^ 1]) := by
  rcases hst with h | h | h | h <;>
  · rw [glPostSingleDiscussion, hresp 1]
    rw [glPostSingleDiscussion, hresp 2]
    rw [glPostSingleDiscussion, hresp 3]
    simp [h, glIsLineNotInDiff]

/-- **C5, amended.**  For either platform client under a persistent
transient server error (HTTP 500/502/503/504): the single post is retried
with delay `RETRY_BASE_DELAY * 2^(k-1)` before the `k`-th retry, the delays
are strictly increasing, the number of retries is `MAX_RETRY_ATTEMPTS - 1 ≤
MAX_RETRY_ATTEMPTS` (so `MAX_RETRY_ATTEMPTS` total attempts), and once the
attempts are exhausted the annotation surfaces as `failed` in the post
result — provided the formatted error message
`HTTP <status>: <statusText> [- <message>]` thrown after exhaustion does not
contain `not in diff`; if it does, the outer posting loop classifies the
annotation as `skipped` instead (see the counterexample). -/
theorem claim_C5 (c : Annotation) (e : ErrResponse) (resps : Nat → HttpOutcome)
    (hst : e.status = 500 ∨ e.status = 502 ∨ e.status = 503 ∨ e.status = 504)
    (hresp : ∀ k, resps k = .err e)
    (hgh : strIncludes (ghFormatMessage e) "not in diff" = false)
    (hgl : strIncludes (glFormatMessage e) "not in diff" = false) :
    ((ghPostSingleComment MAX_RETRY_ATTEMPTS (convertToAPIComment c) resps 1).2 =
        [RETRY_BASE_DELAY * 2 ^ 0, RETRY_BASE_DELAY * 2 ^ 1] ∧
      (ghPostSingleComment MAX_RETRY_ATTEMPTS (convertToAPIComment c) resps 1).2.length =
        MAX_RETRY_ATTEMPTS - 1 ∧
      (ghPostSingleComment MAX_RETRY_ATTEMPTS (convertToAPIComment c) resps 1).2.length ≤
        MAX_RETRY_ATTEMPTS ∧
      List.Chain' (· < ·) (ghPostSingleComment MAX_RETRY_ATTEMPTS (convertToAPIComment c) resps 1).2 ∧
      (ghPostSingleComment MAX_RETRY_ATTEMPTS (convertToAPIComment c) resps 1).1 =
        .error ⟨.githubApiError, ghFormatMessage e⟩ ∧
      ghPostReviewComments [c] (fun _ => resps) =
        { posted := 0, failed := 1, skipped := 0, success := [],
          errors := [⟨c, ghFormatMessage e, .githubApiError⟩] }) ∧
    ((glPostSingleDiscussion MAX_RETRY_ATTEMPTS (convertToAPIComment c) resps 1).2 =
        [RETRY_BASE_DELAY * 2 ^ 0, RETRY_BASE_DELAY * 2 ^ 1] ∧
      (glPostSingleDiscussion MAX_RETRY_ATTEMPTS (convertToAPIComment c) resps 1).1 =
        .error ⟨.gitlabApiError, glFormatMessage e⟩ ∧
      glPostDiscussions [c] (fun _ => resps) =
        { posted := 0, failed := 1, skipped := 0, success := [],
          errors := [⟨c, glFormatMessage e, .gitlabApiError⟩] }) := by
  have hgh3 := ghPostSingleComment_transient_exhaust (convertToAPIComment c) resps e hst hresp
  have hgl3 := glPostSingleDiscussion_transient_exhaust (convertToAPIComment c) resps e hst hresp
  have hghs : ghSingle (fun _ => resps) 0 c = .error ⟨.githubApiError, ghFormatMessage e⟩ := by
    rw [ghSingle]
    rw [show MAX_RETRY_ATTEMPTS = 3 from rfl, hgh3]
  have hgls : glSingle (fun _ => resps) 0 c = .error ⟨.gitlabApiError, glFormatMessage e⟩ := by
    rw [glSingle]
    rw [show MAX_RETRY_ATTEMPTS = 3 from rfl, hgl3]
  rw [show MAX_RETRY_ATTEMPTS = 3 from rfl, hgh3, hgl3]
  refine ⟨⟨rfl, rfl, by simp [MAX_RETRY_ATTEMPTS], by simp [RETRY_BASE_DELAY], rfl, ?_⟩,
    ⟨rfl, rfl, ?_⟩⟩
  · simp [ghPostReviewComments, postLoop, classifyAndAdd, hghs, hgh, emptyPostResult]
  · simp [glPostDiscussions, postLoop, classifyAndAdd, hgls, hgl, emptyPostResult]

/-- A persistently-503 response. -/
def resp503 : ErrResponse := ⟨503, "Service Unavailable", "", [], "", ""⟩

/-- **C5, witness.**  The retry theorem at a concrete always-503 oracle. -/
theorem claim_C5_witness :
    ((ghPostSingleComment MAX_RETRY_ATTEMPTS (convertToAPIComment annA)
        (fun _ => .err resp503) 1).2 =
        [RETRY_BASE_DELAY * 2 ^ 0, RETRY_BASE_DELAY * 2 ^ 1] ∧
      (ghPostSingleComment MAX_RETRY_ATTEMPTS (convertToAPIComment annA)
        (fun _ => .err resp503) 1).2.length = MAX_RETRY_ATTEMPTS - 1 ∧
      (ghPostSingleComment MAX_RETRY_ATTEMPTS (convertToAPIComment annA)
        (fun _ => .err resp503) 1).2.length ≤ MAX_RETRY_ATTEMPTS ∧
      List.Chain' (· < ·) (ghPostSingleComment MAX_RETRY_ATTEMPTS (convertToAPIComment annA)
        (fun _ => .err resp503) 1).2 ∧
      (ghPostSingleComment MAX_RETRY_ATTEMPTS (convertToAPIComment annA)
        (fun _ => .err resp503) 1).1 =
        .error ⟨.githubApiError, ghFormatMessage resp503⟩ ∧
      ghPostReviewComments [annA] (fun _ => fun _ => .err resp503) =
        { posted := 0, failed := 1, skipped := 0, success := [],
          errors := [⟨annA, ghFormatMessage resp503, .githubApiError⟩] }) ∧
    ((glPostSingleDiscussion MAX_RETRY_ATTEMPTS (convertToAPIComment annA)
        (fun _ => .err resp503) 1).2 =
        [RETRY_BASE_DELAY * 2 ^ 0, RETRY_BASE_DELAY * 2 ^ 1] ∧
      (glPostSingleDiscussion MAX_RETRY_ATTEMPTS (convertToAPIComment annA)
        (fun _ => .err resp503) 1).1 =
        .error ⟨.gitlabApiError, glFormatMessage resp503⟩ ∧
      glPostDiscussions [annA] (fun _ => fun _ => .err resp503) =
        { posted := 0, failed := 1, skipped := 0, success := [],
          errors := [⟨annA, glFormatMessage resp503, .gitlabApiError⟩] }) :=
  claim_C5 annA resp503 (fun _ => .err resp503) (by decide) (fun _ => rfl)
    (by decide) (by decide)

/-- A persistently-503 response whose body message happens to mention
`not in diff`. -/
def resp503nid : ErrResponse :=
  ⟨503, "Service Unavailable", "line 9 not in diff for a.ts", [], "", ""⟩

/-- **C5, counterexample.**  Without the message proviso the claim is false:
under a persistent 503 whose body message mentions `not in diff`, both
clients exhaust the retries exactly as for any transient error — two backoff
delays, then the formatted API error — but the outer posting loops classify
any caught error whose message includes `not in diff` as `skipped`, so the
annotation is *not* surfaced as `failed`: the post result counts
`skipped = 1, failed = 0` and records no error entry. -/
theorem claim_C5_counterexample :
    (resp503nid.status = 500 ∨ resp503nid.status = 502 ∨ resp503nid.status = 503 ∨
      resp503nid.status = 504) ∧
    ghPostSingleComment MAX_RETRY_ATTEMPTS (convertToAPIComment annA)
        (fun _ => .err resp503nid) 1 =
      (.error ⟨.githubApiError, ghFormatMessage resp503nid⟩,
       [RETRY_BASE_DELAY * 2 ^ 0, RETRY_BASE_DELAY * 2 ^ 1]) ∧
    ghPostReviewComments [annA] (fun _ _ => .err resp503nid) =
      { posted := 0, failed := 0, skipped := 1, success := [], errors := [] } ∧
    glPostSingleDiscussion MAX_RETRY_ATTEMPTS (convertToAPIComment annA)
        (fun _ => .err resp503nid) 1 =
      (.error ⟨.gitlabApiError, glFormatMessage resp503nid⟩,
       [RETRY_BASE_DELAY * 2 ^ 0, RETRY_BASE_DELAY * 2 ^ 1]) ∧
    glPostDiscussions [annA] (fun _ _ => .err resp503nid) =
      { posted := 0, failed := 0, skipped := 1, success := [], errors := [] } := by
  have hgh := ghPostSingleComment_transient_exhaust (convertToAPIComment annA)
    (fun _ => .err resp503nid) resp503nid (by decide) (fun _ => rfl)
  have hgl := glPostSingleDiscussion_transient_exhaust (convertToAPIComment annA)
    (fun _ => .err resp503nid) resp503nid (by decide) (fun _ => rfl)
  have hghs : ghSingle (fun _ _ => .err resp503nid) 0 annA =
      .error ⟨.githubApiError, ghFormatMessage resp503nid⟩ := by
    rw [ghSingle]
    rw [show MAX_RETRY_ATTEMPTS = 3 from rfl, hgh]
  have hgls : glSingle (fun _ _ => .err resp503nid) 0 annA =
      .error ⟨.gitlabApiError, glFormatMessage resp503nid⟩ := by
    rw [glSingle]
    rw [show MAX_RETRY_ATTEMPTS = 3 from rfl, hgl]
  refine ⟨by decide, ?_, ?_, ?_, ?_⟩
  · rw [show MAX_RETRY_ATTEMPTS = 3 from rfl]
    exact hgh
  · simp [ghPostReviewComments, postLoop, classifyAndAdd, hghs, emptyPostResult,
      show strIncludes (ghFormatMessage resp503nid) "not in diff" = true from by decide]
  · rw [show MAX_RETRY_ATTEMPTS = 3 from rfl]
    exact hgl
  · simp [glPostDiscussions, postLoop, classifyAndAdd, hgls, emptyPostResult,
      show strIncludes (glFormatMessage resp503nid) "not in diff" = true from by decide]

/-! ## "Line not in diff" classification -/

/-- GitHub: a 422 response turns into the `not in diff` error at once. -/
theorem ghPostSingleComment_422 (mr : Nat) (c : APIComment) (resp : Nat → HttpOutcome)
    (attempt : Nat) (e : ErrResponse) (he : resp attempt = .err e) (h : e.status = 422) :
    ghPostSingleComment mr c resp attempt =
      (.error ⟨.githubApiError, notInDiffMessage c⟩, []) := by
  rw [ghPostSingleComment, he]
  simp [h]

/-- GitLab: a 400 response whose message mentions `line` or `position` turns
into the `not in diff` error at once. -/
theorem glPostSingleDiscussion_400 (mr : Nat) (c : APIComment) (resp : Nat → HttpOutcome)
    (attempt : Nat) (e : ErrResponse) (he : resp attempt = .err e) (h : e.status = 400)
    (hl : glIsLineNotInDiff e = true) :
    glPostSingleDiscussion mr c resp attempt =
      (.error ⟨.gitlabApiError, notInDiffMessage c⟩, []) := by
  rw [glPostSingleDiscussion, he]
  simp [h, hl]

/-- A 422 response. -/
def resp422 : ErrResponse := ⟨422, "Unprocessable Entity", "", [], "", ""⟩

/-- A 400 response whose message mentions `line`. -/
def resp400line : ErrResponse :=
  ⟨400, "Bad Request", "line_code must be a valid line code", [], "", ""⟩

/-- Oracle: the first annotation posts fine, the second draws a 422. -/
def oracle422 : Nat → Nat → HttpOutcome :=
  fun i _ => if i = 0 then .ok "cid" else .err resp422

/-- Oracle: the first annotation posts fine, the second draws the GitLab
line-not-in-diff 400. -/
def oracle400 : Nat → Nat → HttpOutcome :=
  fun i _ => if i = 0 then .ok "cid" else .err resp400line

/-- **C6.**  A "line is not part of the diff" response (HTTP 422 on GitHub;
HTTP 400 with a message mentioning line/position on GitLab) classifies the
annotation as `skipped`, not as `failed` and not as an error entry; in a
two-annotation run where one is rejected this way and the other succeeds the
result is `posted:1, skipped:1, failed:0` with no error entries. -/
theorem claim_C6 (mr : Nat) (c : Annotation) (resp : Nat → HttpOutcome) (attempt : Nat)
    (e : ErrResponse) (he : resp attempt = .err e) :
    ((e.status = 422 →
        ghPostSingleComment mr (convertToAPIComment c) resp attempt =
          (.error ⟨.githubApiError, notInDiffMessage (convertToAPIComment c)⟩, []) ∧
        isSkippedOutcome (ghPostSingleComment mr (convertToAPIComment c) resp attempt).1 = true ∧
        isFailedOutcome (ghPostSingleComment mr (convertToAPIComment c) resp attempt).1 = false) ∧
      (e.status = 400 → glIsLineNotInDiff e = true →
        glPostSingleDiscussion mr (convertToAPIComment c) resp attempt =
          (.error ⟨.gitlabApiError, notInDiffMessage (convertToAPIComment c)⟩, []) ∧
        isSkippedOutcome (glPostSingleDiscussion mr (convertToAPIComment c) resp attempt).1 = true ∧
        isFailedOutcome (glPostSingleDiscussion mr (convertToAPIComment c) resp attempt).1 = false)) ∧
    (ghPostReviewComments [annA, annB] oracle422 =
        { posted := 1, failed := 0, skipped := 1, success := ["cid"], errors := [] } ∧
      glPostDiscussions [annA, annB] oracle400 =
        { posted := 1, failed := 0, skipped := 1, success := ["cid"], errors := [] }) := by
  constructor
  · constructor
    · intro h422
      have hx := ghPostSingleComment_422 mr (convertToAPIComment c) resp attempt e he h422
      refine ⟨hx, ?_, ?_⟩ <;>
        simp [hx, isSkippedOutcome, isFailedOutcome, notInDiffMessage_includes]
    · intro h400 hl
      have hx := glPostSingleDiscussion_400 mr (convertToAPIComment c) resp attempt e he h400 hl
      refine ⟨hx, ?_, ?_⟩ <;>
        simp [hx, isSkippedOutcome, isFailedOutcome, notInDiffMessage_includes]
  · constructor
    · have h0 : ghSingle oracle422 0 annA = .ok "cid" := by
        rw [ghSingle, ghPostSingleComment]
        simp [oracle422]
      have h1 : ghSingle oracle422 1 annB =
          .error ⟨.githubApiError, notInDiffMessage (convertToAPIComment annB)⟩ := by
        rw [ghSingle, ghPostSingleComment_422 _ _ _ _ resp422 rfl rfl]
      simp [ghPostReviewComments, postLoop, classifyAndAdd, h0, h1,
        notInDiffMessage_includes, emptyPostResult]
    · have h0 : glSingle oracle400 0 annA = .ok "cid" := by
        rw [glSingle, glPostSingleDiscussion]
        simp [oracle400]
      have h1 : glSingle oracle400 1 annB =
          .error ⟨.gitlabApiError, notInDiffMessage (convertToAPIComment annB)⟩ := by
        rw [glSingle, glPostSingleDiscussion_400 _ _ _ _ resp400line rfl rfl (by decide)]
      simp [glPostDiscussions, postLoop, classifyAndAdd, h0, h1,
        notInDiffMessage_includes, emptyPostResult]

/-- **C6, witness.**  The classification theorem applied to the concrete 422
and 400 responses. -/
theorem claim_C6_witness :
    ((resp422.status = 422 →
        ghPostSingleComment 3 (convertToAPIComment annB) (oracle422 1) 1 =
          (.error ⟨.githubApiError, notInDiffMessage (convertToAPIComment annB)⟩, []) ∧
        isSkippedOutcome (ghPostSingleComment 3 (convertToAPIComment annB) (oracle422 1) 1).1 =
          true ∧
        isFailedOutcome (ghPostSingleComment 3 (convertToAPIComment annB) (oracle422 1) 1).1 =
          false) ∧
      (resp422.status = 400 → glIsLineNotInDiff resp422 = true →
        glPostSingleDiscussion 3 (convertToAPIComment annB) (oracle422 1) 1 =
          (.error ⟨.gitlabApiError, notInDiffMessage (convertToAPIComment annB)⟩, []) ∧
        isSkippedOutcome (glPostSingleDiscussion 3 (convertToAPIComment annB) (oracle422 1) 1).1 =
          true ∧
        isFailedOutcome (glPostSingleDiscussion 3 (convertToAPIComment annB) (oracle422 1) 1).1 =
          false)) ∧
    (ghPostReviewComments [annA, annB] oracle422 =
        { posted := 1, failed := 0, skipped := 1, success := ["cid"], errors := [] } ∧
      glPostDiscussions [annA, annB] oracle400 =
        { posted := 1, failed := 0, skipped := 1, success := ["cid"], errors := [] }) :=
  claim_C6 3 annB (oracle422 1) 1 resp422 rfl

/-! ## Cleaner structural lemmas -/

/-- A targeted line that fails `cleanFile`'s optimistic-concurrency check:
its 1-based number is out of range of the current line list, or the current
text differs from the recorded `originalLine`. -/
def badLine (lines : List (List Char)) (c : Annotation) : Prop :=
  c.lineNumber = 0 ∨ lines.length < c.lineNumber ∨
    lines.getD (c.lineNumber - 1) [] ≠ c.originalLine

theorem mem_keyStep (acc : List (List Char)) (k x : List Char) (h : x ∈ acc) :
    x ∈ (if acc.contains k = true then acc else acc ++ [k]) := by
  split
  · exact h
  · exact List.mem_append_left _ h

theorem key_mem_keyStep (acc : List (List Char)) (k : List Char) :
    k ∈ (if acc.contains k = true then acc else acc ++ [k]) := by
  split
  · exact List.elem_iff.mp (by assumption)
  · exact List.mem_append_right _ (List.mem_singleton.mpr rfl)

theorem keysInOrder_aux_nodup (cs : List Annotation) (acc : List (List Char))
    (h : acc.Nodup) :
    (cs.foldl (fun acc c => if acc.contains c.filePath then acc else acc ++ [c.filePath])
      acc).Nodup := by
  induction cs generalizing acc with
  | nil => simpa using h
  | cons c rest ih =>
    simp only [List.foldl_cons]
    refine ih _ ?_
    split
    · exact h
    · have hnm : c.filePath ∉ acc := fun hm => by simp_all [List.elem_iff]
      simp [List.nodup_append, h, hnm]

theorem keysInOrder_nodup (cs : List Annotation) : (keysInOrder cs).Nodup :=
  keysInOrder_aux_nodup cs [] List.nodup_nil

theorem keysInOrder_aux_mem (cs : List Annotation) (acc : List (List Char)) (x : List Char)
    (h : x ∈ acc ∨ ∃ c ∈ cs, c.filePath = x) :
    x ∈ cs.foldl (fun acc c => if acc.contains c.filePath then acc else acc ++ [c.filePath])
      acc := by
  induction cs generalizing acc with
  | nil =>
    rcases h with h | ⟨c, hc, _⟩
    · simpa using h
    · simp at hc
  | cons c rest ih =>
    simp only [List.foldl_cons]
    rcases h with h | ⟨d, hd, hdx⟩
    · exact ih _ (Or.inl (mem_keyStep acc c.filePath x h))
    · rcases List.mem_cons.mp hd with rfl | hd'
      · exact ih _ (Or.inl (hdx ▸ key_mem_keyStep acc d.filePath))
      · exact ih _ (Or.inr ⟨d, hd', hdx⟩)

theorem keysInOrder_mem (cs : List Annotation) (c : Annotation) (hc : c ∈ cs) :
    c.filePath ∈ keysInOrder cs :=
  keysInOrder_aux_mem cs [] c.filePath (Or.inr ⟨c, hc, rfl⟩)

theorem groupCommentsByFile_keys (cs : List Annotation) :
    (groupCommentsByFile cs).map Prod.fst = keysInOrder cs := by
  unfold groupCommentsByFile
  rw [List.map_map]
  simp [Function.comp_def]

theorem mem_insertDesc (c a : Annotation) (l : List Annotation) :
    a ∈ insertDesc c l ↔ a = c ∨ a ∈ l := by
  induction l with
  | nil => simp [insertDesc]
  | cons d t ih =>
    by_cases h : d.lineNumber ≤ c.lineNumber
    · simp [insertDesc, h]
    · simp only [insertDesc, if_neg h, List.mem_cons, ih]
      tauto

theorem mem_sortDesc (cs : List Annotation) (a : Annotation) :
    a ∈ sortDesc cs ↔ a ∈ cs := by
  induction cs with
  | nil => simp [sortDesc]
  | cons c rest ih =>
    simp only [sortDesc, List.foldr_cons] at ih ⊢
    rw [mem_insertDesc, ih, List.mem_cons]

/-- The verification loop fails with a `FILE_ERROR` as soon as one targeted
line is bad. -/
theorem verifyComments_error_of_bad (lines : List (List Char)) (cs : List Annotation)
    (hbad : ∃ c ∈ cs, badLine lines c) :
    ∃ e, verifyComments lines cs = .error e ∧ e.etype = .fileError := by
  induction cs with
  | nil => simp at hbad
  | cons c rest ih =>
    by_cases h1 : c.lineNumber = 0 ∨ lines.length < c.lineNumber
    · refine ⟨⟨.fileError, "Comment line is out of range"⟩, ?_, rfl⟩
      rw [verifyComments, if_pos h1]
    · by_cases h2 : lines.getD (c.lineNumber - 1) [] ≠ c.originalLine
      · refine ⟨⟨.fileError, "Line has changed since scanning"⟩, ?_, rfl⟩
        rw [verifyComments, if_neg h1, if_pos h2]
      · have hcgood : ¬ badLine lines c := by
          push_neg at h1 h2
          simp only [badLine, not_or]
          push_neg
          exact ⟨h1.1, h1.2, h2⟩
        rcases hbad with ⟨d, hd, hbd⟩
        rcases List.mem_cons.mp hd with rfl | hd'
        · exact absurd hbd hcgood
        · rcases ih ⟨d, hd', hbd⟩ with ⟨e, he, het⟩
          refine ⟨e, ?_, het⟩
          rw [verifyComments, if_neg h1, if_neg h2, he]
          rfl

/-- A bad targeted line makes the whole `cleanFile` fail with a
`FILE_ERROR` (the failure is decided by the file's current content alone). -/
theorem cleanFile_error_of_bad (opts : CleanOptions) (fs : FS) (fpath : List Char)
    (cs : List Annotation) (content : List Char) (hc : fs fpath = some content)
    (hbad : ∃ c ∈ cs, badLine (splitNl content) c) :
    ∃ e, cleanFile opts fs fpath cs = .error e ∧ e.etype = .fileError := by
  rcases verifyComments_error_of_bad (splitNl content) cs hbad with ⟨e, he, het⟩
  refine ⟨e, ?_, het⟩
  simp only [cleanFile, hc, he]

/-- Facts about a successful `cleanFile`. -/
theorem cleanFile_ok_facts (opts : CleanOptions) (fs : FS) (fpath : List Char)
    (cs : List Annotation) (cf : CleanedFile) (fs' : FS)
    (h : cleanFile opts fs fpath cs = .ok (cf, fs')) :
    cf.filePath = fpath ∧
    (∀ q, q ≠ fpath → fs' q = fs q) ∧
    (opts.dryRun = false → opts.createBackups = true → cf.backup = fs fpath) ∧
    (opts.createBackups = false → cf.backup = none) ∧
    fs fpath ≠ none := by
  rcases hfs : fs fpath with _ | content
  · simp only [cleanFile, hfs] at h
    exact absurd h (by simp)
  · simp only [cleanFile, hfs] at h
    rcases hv : verifyComments (splitNl content) cs with e | idxs
    · simp only [hv] at h
      exact absurd h (by simp)
    · simp only [hv] at h
      by_cases hdr : opts.dryRun = true
      · simp only [hdr, Bool.not_true, Bool.and_false, Bool.false_eq_true, if_false,
          if_true, Except.ok.injEq, Prod.mk.injEq] at h
        obtain ⟨h1, h2⟩ := h
        subst h1
        subst h2
        exact ⟨rfl, fun q _ => rfl, fun hd _ => absurd hdr (by simp [hd]),
          fun hcb => rfl, by simp [hfs]⟩
      · have hdr' : opts.dryRun = false := Bool.eq_false_iff.mpr hdr
        simp only [hdr', Bool.not_false, Bool.and_true, Bool.false_eq_true, if_false,
          Except.ok.injEq, Prod.mk.injEq] at h
        obtain ⟨h1, h2⟩ := h
        subst h1
        subst h2
        refine ⟨rfl, fun q hq => ?_, fun _ hcb => ?_, fun hcb => ?_, by simp [hfs]⟩
        · simp [fsUpdate, hq]
        · simp [hcb, hfs]
        · simp [hcb]

/-! ## Clean-run invariants -/

theorem cleanLoop_cleaned_paths (opts : CleanOptions)
    (groups : List (List Char × List Annotation)) (fs : FS) :
    ∀ cf ∈ (cleanLoop opts groups fs).1, cf.filePath ∈ groups.map Prod.fst := by
  induction groups generalizing fs with
  | nil => simp [cleanLoop]
  | cons g rest ih =>
    obtain ⟨fpath, cs⟩ := g
    intro cf hcf
    simp only [cleanLoop] at hcf
    rcases hcl : cleanFile opts fs fpath cs with e | r0
    · rw [hcl] at hcf
      exact List.mem_cons_of_mem _ (ih fs cf hcf)
    · obtain ⟨cf0, fs'⟩ := r0
      rw [hcl] at hcf
      rcases List.mem_cons.mp hcf with rfl | hcf'
      · simp [(cleanFile_ok_facts opts fs fpath cs cf fs' hcl).1]
      · exact List.mem_cons_of_mem _ (ih fs' cf hcf')

theorem cleanLoop_fs_local (opts : CleanOptions)
    (groups : List (List Char × List Annotation)) (fs : FS) (q : List Char)
    (hq : q ∉ groups.map Prod.fst) :
    (cleanLoop opts groups fs).2.2.2 q = fs q := by
  induction groups generalizing fs with
  | nil => simp [cleanLoop]
  | cons g rest ih =>
    obtain ⟨fpath, cs⟩ := g
    have hq1 : q ≠ fpath := fun h => hq (by simp [h])
    have hq2 : q ∉ rest.map Prod.fst := fun h => hq (by simp [h])
    simp only [cleanLoop]
    rcases hcl : cleanFile opts fs fpath cs with e | r0
    · exact ih fs hq2
    · obtain ⟨cf0, fs'⟩ := r0
      have hfs' : fs' q = fs q := (cleanFile_ok_facts opts fs fpath cs cf0 fs' hcl).2.1 q hq1
      rw [show (cleanLoop opts rest fs').2.2.2 q = fs' q from ih fs' hq2, hfs']

/-- `restoreAll` only looks at its input through the restored paths and the
value at `q`. -/
theorem restoreAll_agree (cfs : List CleanedFile) (f g : FS) (q : List Char)
    (h : f q = g q) : restoreAll cfs f q = restoreAll cfs g q := by
  induction cfs generalizing f g with
  | nil => exact h
  | cons cf rest ih =>
    simp only [restoreAll, List.foldl_cons]
    rcases hb : cf.backup with _ | b
    · exact ih f g h
    · refine ih _ _ ?_
      simp only [fsUpdate]
      split <;> simp [h]

/-- Restoring a list of cleaned files whose paths all differ from `q` leaves
`q` alone. -/
theorem restoreAll_preserve (cfs : List CleanedFile) (f : FS) (q : List Char)
    (h : ∀ cf ∈ cfs, cf.filePath ≠ q) : restoreAll cfs f q = f q := by
  induction cfs generalizing f with
  | nil => rfl
  | cons cf rest ih =>
    simp only [restoreAll, List.foldl_cons]
    have hne := h cf (List.mem_cons_self _ _)
    have hrest : ∀ d ∈ rest, d.filePath ≠ q := fun d hd => h d (List.mem_cons_of_mem _ hd)
    have hstep : (match cf.backup with
        | some b => fsUpdate f cf.filePath b
        | none => f) q = f q := by
      rcases cf.backup with _ | b
      · rfl
      · show fsUpdate f cf.filePath b q = f q
        simp only [fsUpdate]
        rw [if_neg (fun hh : q = cf.filePath => hne hh.symm)]
    calc restoreAll rest (match cf.backup with
          | some b => fsUpdate f cf.filePath b
          | none => f) q
      = (match cf.backup with
          | some b => fsUpdate f cf.filePath b
          | none => f) q := ih _ hrest
    _ = f q := hstep

/-- With backups on and no dry run, restoring every cleaned file after the
per-file loop recovers the original file system pointwise. -/
theorem cleanLoop_restore (opts : CleanOptions) (hcb : opts.createBackups = true)
    (hdr : opts.dryRun = false) (groups : List (List Char × List Annotation)) (fs : FS)
    (hnd : (groups.map Prod.fst).Nodup) (q : List Char) :
    restoreAll (cleanLoop opts groups fs).1 (cleanLoop opts groups fs).2.2.2 q = fs q := by
  induction groups generalizing fs with
  | nil => rfl
  | cons g rest ih =>
    obtain ⟨fpath, cs⟩ := g
    have hnd2 : (fpath :: rest.map Prod.fst).Nodup := by simpa using hnd
    have hpnotin : fpath ∉ rest.map Prod.fst := (List.nodup_cons.mp hnd2).1
    have hnd' : (rest.map Prod.fst).Nodup := (List.nodup_cons.mp hnd2).2
    simp only [cleanLoop]
    rcases hcl : cleanFile opts fs fpath cs with e | r0
    · exact ih fs hnd'
    · obtain ⟨cf0, fs'⟩ := r0
      obtain ⟨hpath, hlocal, hback, _, hpresent⟩ :=
        cleanFile_ok_facts opts fs fpath cs cf0 fs' hcl
      have hb : cf0.backup = fs fpath := hback hdr hcb
      show restoreAll (cf0 :: (cleanLoop opts rest fs').1) (cleanLoop opts rest fs').2.2.2 q
        = fs q
      rcases hfb : fs fpath with _ | b
      · exact absurd hfb hpresent
      · have hb' : cf0.backup = some b := by rw [hb, hfb]
        simp only [restoreAll, List.foldl_cons, hb', hpath]
        by_cases hq : q = fpath
        · subst hq
          have hpres : ∀ cf ∈ (cleanLoop opts rest fs').1, cf.filePath ≠ q := by
            intro cf hcf hqe
            exact hpnotin (hqe ▸ cleanLoop_cleaned_paths opts rest fs' cf hcf)
          rw [show List.foldl (fun f cf =>
              match cf.backup with
              | some b => fsUpdate f cf.filePath b
              | none => f) (fsUpdate (cleanLoop opts rest fs').2.2.2 q b)
              (cleanLoop opts rest fs').1 =
            restoreAll (cleanLoop opts rest fs').1
              (fsUpdate (cleanLoop opts rest fs').2.2.2 q b) from rfl]
          rw [restoreAll_preserve _ _ q hpres]
          simp only [fsUpdate, if_pos rfl]
          exact hfb.symm
        · rw [show List.foldl (fun f cf =>
              match cf.backup with
              | some b => fsUpdate f cf.filePath b
              | none => f) (fsUpdate (cleanLoop opts rest fs').2.2.2 fpath b)
              (cleanLoop opts rest fs').1 =
            restoreAll (cleanLoop opts rest fs').1
              (fsUpdate (cleanLoop opts rest fs').2.2.2 fpath b) from rfl]
          have hagree : fsUpdate (cleanLoop opts rest fs').2.2.2 fpath b q =
              (cleanLoop opts rest fs').2.2.2 q := by
            simp [fsUpdate, hq]
          rw [restoreAll_agree _ _ _ q hagree, ih fs' hnd']
          exact hlocal q hq

/-! ## Clean-run claims -/

/-- Fixture file system: `a.ts` holds a cleanly removable ghost comment,
`b.ts` does not match its recorded annotation. -/
def cfs0 : FS := fun q =>
  if q = "a.ts".data then some "one\n// rm\nthree".data
  else if q = "b.ts".data then some "xxx".data
  else none

/-- Annotation on `a.ts` that verifies. -/
def cAnnA : Annotation := ⟨"a.ts".data, 2, "rm".data, "//".data, "// rm".data⟩

/-- Annotation on `b.ts` whose recorded line no longer matches. -/
def cAnnB : Annotation := ⟨"b.ts".data, 1, "z".data, "//".data, "// z".data⟩

/-- **C1, counterexample.**  A run with `restoreOnError` set, not a dry run,
and a failing file (`b.ts`) — but with `createBackups` disabled: the run
reports `hasErrors` and `commentsRemoved = 0`, yet the successfully cleaned
`a.ts` is *not* restored (its bytes differ from the pre-run state), because
no backup copy exists.  This refutes the claim as universally stated over
all clean runs. -/
theorem claim_C1_counterexample :
    (removeComments [cAnnA, cAnnB] ⟨false, true, false, false⟩ cfs0).1.hasErrors = true ∧
    (removeComments [cAnnA, cAnnB] ⟨false, true, false, false⟩ cfs0).1.commentsRemoved = 0 ∧
    "a.ts".data ∈ (removeComments [cAnnA, cAnnB] ⟨false, true, false, false⟩
      cfs0).1.modifiedFiles ∧
    (removeComments [cAnnA, cAnnB] ⟨false, true, false, false⟩ cfs0).2 "a.ts".data ≠
      cfs0 "a.ts".data := by
  decide

/-- **C1, amended.**  For every clean run with `createBackups` enabled (so
backup copies exist), `restoreOnError` set and not a dry run: if any file's
clean fails, the whole file system is restored to its pre-run state — in
particular every successfully cleaned file is restored from its backup — and
the returned `commentsRemoved` is zero (with `hasErrors` true by
hypothesis). -/
theorem claim_C1 (cs : List Annotation) (opts : CleanOptions) (fs : FS)
    (hcb : opts.createBackups = true) (hro : opts.restoreOnError = true)
    (hdr : opts.dryRun = false)
    (herr : (removeComments cs opts fs).1.hasErrors = true) :
    (removeComments cs opts fs).1.commentsRemoved = 0 ∧
    (removeComments cs opts fs).2 = fs := by
  by_cases hemp : cs.isEmpty
  · exact absurd (by simp [removeComments, hemp] at herr) (fun h => h)
  · have hemp' : cs.isEmpty = false := Bool.eq_false_iff.mpr hemp
    have hnd : ((groupCommentsByFile cs).map Prod.fst).Nodup := by
      rw [groupCommentsByFile_keys]
      exact keysInOrder_nodup cs
    simp only [removeComments, hemp', Bool.false_eq_true, if_false, hro, hdr,
      Bool.not_false, Bool.and_true] at herr ⊢
    rw [herr]
    refine ⟨rfl, funext fun q => ?_⟩
    simp only [if_pos rfl]
    exact cleanLoop_restore opts hcb hdr (groupCommentsByFile cs) fs hnd q

/-- **C1, witness.**  The amended theorem at the concrete two-file run with
default options (backups on): the failing `b.ts` triggers a full restore. -/
theorem claim_C1_witness :
    (removeComments [cAnnA, cAnnB] DEFAULT_CLEAN_OPTIONS cfs0).1.hasErrors = true ∧
    ((removeComments [cAnnA, cAnnB] DEFAULT_CLEAN_OPTIONS cfs0).1.commentsRemoved = 0 ∧
      (removeComments [cAnnA, cAnnB] DEFAULT_CLEAN_OPTIONS cfs0).2 = cfs0) :=
  ⟨by decide, claim_C1 [cAnnA, cAnnB] DEFAULT_CLEAN_OPTIONS cfs0 rfl rfl rfl (by decide)⟩

/-- With backups disabled, no cleaned file carries a backup. -/
theorem cleanLoop_backup_none (opts : CleanOptions) (hcb : opts.createBackups = false)
    (groups : List (List Char × List Annotation)) (fs : FS) :
    ∀ cf ∈ (cleanLoop opts groups fs).1, cf.backup = none := by
  induction groups generalizing fs with
  | nil => simp [cleanLoop]
  | cons g rest ih =>
    obtain ⟨fpath, cs⟩ := g
    intro cf hcf
    simp only [cleanLoop] at hcf
    rcases hcl : cleanFile opts fs fpath cs with e | r0
    · rw [hcl] at hcf
      exact ih fs cf hcf
    · obtain ⟨cf0, fs'⟩ := r0
      rw [hcl] at hcf
      rcases List.mem_cons.mp hcf with rfl | hcf'
      · exact (cleanFile_ok_facts opts fs fpath cs cf fs' hcl).2.2.2.1 hcb
      · exact ih fs' cf hcf'

/-- Restoring with no backups is the identity. -/
theorem restoreAll_id_of_none (cfs : List CleanedFile) (f : FS)
    (h : ∀ cf ∈ cfs, cf.backup = none) : restoreAll cfs f = f := by
  induction cfs generalizing f with
  | nil => rfl
  | cons cf rest ih =>
    simp only [restoreAll, List.foldl_cons, h cf (List.mem_cons_self _ _)]
    exact ih f fun d hd => h d (List.mem_cons_of_mem _ hd)

/-- **C10.**  A clean run with `createBackups` disabled, `restoreOnError`
enabled and not a dry run, in which some file fails: the rollback loop finds
no backups to restore, so the final file system is exactly the post-clean
state (successfully cleaned files keep their annotation lines removed on
disk), yet `commentsRemoved` is reset to zero — the reported count
understates the mutations actually persisted. -/
theorem claim_C10 (cs : List Annotation) (opts : CleanOptions) (fs : FS)
    (hcb : opts.createBackups = false) (hro : opts.restoreOnError = true)
    (hdr : opts.dryRun = false)
    (herr : (removeComments cs opts fs).1.hasErrors = true) :
    (removeComments cs opts fs).1.commentsRemoved = 0 ∧
    (removeComments cs opts fs).2 =
      (cleanLoop opts (groupCommentsByFile cs) fs).2.2.2 := by
  by_cases hemp : cs.isEmpty
  · exact absurd (by simp [removeComments, hemp] at herr) (fun h => h)
  · have hemp' : cs.isEmpty = false := Bool.eq_false_iff.mpr hemp
    simp only [removeComments, hemp', Bool.false_eq_true, if_false, hro, hdr,
      Bool.not_false, Bool.and_true] at herr ⊢
    rw [herr]
    refine ⟨rfl, ?_⟩
    simp only [if_pos rfl]
    exact restoreAll_id_of_none _ _
      (cleanLoop_backup_none opts hcb (groupCommentsByFile cs) fs)

/-- **C10, witness.**  The theorem at the concrete two-file run, plus the
persisted mutation: the cleaned `a.ts` really differs from its pre-run
bytes while the result still reports zero removals. -/
theorem claim_C10_witness :
    (removeComments [cAnnA, cAnnB] ⟨false, true, false, false⟩ cfs0).1.hasErrors = true ∧
    ((removeComments [cAnnA, cAnnB] ⟨false, true, false, false⟩ cfs0).1.commentsRemoved = 0 ∧
      (removeComments [cAnnA, cAnnB] ⟨false, true, false, false⟩ cfs0).2 =
        (cleanLoop ⟨false, true, false, false⟩ (groupCommentsByFile [cAnnA, cAnnB])
          cfs0).2.2.2) ∧
    (removeComments [cAnnA, cAnnB] ⟨false, true, false, false⟩ cfs0).2 "a.ts".data ≠
      cfs0 "a.ts".data :=
  ⟨by decide,
   claim_C10 [cAnnA, cAnnB] ⟨false, true, false, false⟩ cfs0 rfl rfl rfl (by decide),
   by decide⟩

/-- Traversal of the per-file loop past an entry whose verification fails:
the path lands in `errorFiles`, its bytes are untouched, and it is never
among the cleaned files. -/
theorem cleanLoop_failing_entry (opts : CleanOptions)
    (groups : List (List Char × List Annotation)) (fs : FS) (p : List Char)
    (csg : List Annotation) (content : List Char)
    (hnd : (groups.map Prod.fst).Nodup) (hmem : (p, csg) ∈ groups)
    (hc : fs p = some content)
    (hbad : ∃ c ∈ csg, badLine (splitNl content) c) :
    p ∈ (cleanLoop opts groups fs).2.1 ∧
    (cleanLoop opts groups fs).2.2.2 p = fs p ∧
    (∀ cf ∈ (cleanLoop opts groups fs).1, cf.filePath ≠ p) := by
  induction groups generalizing fs with
  | nil => simp at hmem
  | cons g rest ih =>
    obtain ⟨fpath, ds⟩ := g
    have hnd2 : (fpath :: rest.map Prod.fst).Nodup := by simpa using hnd
    have hpnotin : fpath ∉ rest.map Prod.fst := (List.nodup_cons.mp hnd2).1
    have hnd' : (rest.map Prod.fst).Nodup := (List.nodup_cons.mp hnd2).2
    rcases List.mem_cons.mp hmem with heq | hmem'
    · rw [Prod.mk.injEq] at heq
      obtain ⟨heq1, heq2⟩ := heq
      subst heq1
      subst heq2
      rcases cleanFile_error_of_bad opts fs p csg content hc hbad with ⟨e, he, _⟩
      simp only [cleanLoop, he]
      refine ⟨List.mem_cons_self _ _, ?_, ?_⟩
      · exact cleanLoop_fs_local opts rest fs p hpnotin
      · intro cf hcf hfp
        exact hpnotin (hfp ▸ cleanLoop_cleaned_paths opts rest fs cf hcf)
    · have hpfneq : p ≠ fpath := by
        intro h
        subst h
        exact hpnotin (List.mem_map.mpr ⟨(p, csg), hmem', rfl⟩)
      simp only [cleanLoop]
      rcases hcl : cleanFile opts fs fpath ds with e | r0
      · obtain ⟨h1, h2, h3⟩ := ih fs hnd' hmem' hc
        exact ⟨List.mem_cons_of_mem _ h1, h2, h3⟩
      · obtain ⟨cf0, fs'⟩ := r0
        have hfacts := cleanFile_ok_facts opts fs fpath ds cf0 fs' hcl
        have hfs' : fs' p = fs p := hfacts.2.1 p hpfneq
        obtain ⟨h1, h2, h3⟩ := ih fs' hnd' hmem' (hfs'.trans hc)
        refine ⟨h1, h2.trans hfs', ?_⟩
        intro cf hcf
        rcases List.mem_cons.mp hcf with rfl | hcf'
        · rw [hfacts.1]
          exact fun hh => hpfneq hh.symm
        · exact h3 cf hcf'

/-- **C2.**  If any annotation targeted at file `p` is stale — its 1-based
line number is out of range of `p`'s current line list, or the current text
of that line differs from the recorded `originalLine` — then `p`'s clean
fails with a `FILE_ERROR` before any write (no line of `p` is removed), `p`
is reported in `errorFiles`, and under the rollback policy the run leaves
`p`'s bytes identical to the pre-clean state. -/
theorem claim_C2 (comments : List Annotation) (opts : CleanOptions) (fs : FS)
    (p content : List Char) (hc : fs p = some content)
    (hbad : ∃ c ∈ comments, c.filePath = p ∧ badLine (splitNl content) c) :
    (∃ e, cleanFile opts fs p (sortDesc (comments.filter fun c => c.filePath = p)) =
        .error e ∧ e.etype = .fileError) ∧
    p ∈ (removeComments comments opts fs).1.errorFiles ∧
    (removeComments comments opts fs).2 p = fs p := by
  obtain ⟨c0, hc0mem, hc0path, hc0bad⟩ := hbad
  have hbadg : ∃ c ∈ sortDesc (comments.filter fun c => c.filePath = p),
      badLine (splitNl content) c := by
    refine ⟨c0, ?_, hc0bad⟩
    rw [mem_sortDesc]
    exact List.mem_filter.mpr ⟨hc0mem, by simp [hc0path]⟩
  have hfail := cleanFile_error_of_bad opts fs p
    (sortDesc (comments.filter fun c => c.filePath = p)) content hc hbadg
  have hemp' : comments.isEmpty = false := by
    cases comments with
    | nil => simp at hc0mem
    | cons a t => rfl
  have hmem : (p, sortDesc (comments.filter fun c => c.filePath = p)) ∈
      groupCommentsByFile comments := by
    unfold groupCommentsByFile
    exact List.mem_map.mpr ⟨p, hc0path ▸ keysInOrder_mem comments c0 hc0mem, rfl⟩
  have hnd : ((groupCommentsByFile comments).map Prod.fst).Nodup :=
    groupCommentsByFile_keys comments ▸ keysInOrder_nodup comments
  obtain ⟨h1, h2, h3⟩ := cleanLoop_failing_entry opts (groupCommentsByFile comments) fs p
    (sortDesc (comments.filter fun c => c.filePath = p)) content hnd hmem hc hbadg
  refine ⟨hfail, ?_, ?_⟩
  · simp only [removeComments, hemp', Bool.false_eq_true, if_false]
    exact h1
  · simp only [removeComments, hemp', Bool.false_eq_true, if_false]
    split
    · rw [restoreAll_preserve _ _ p h3]
      exact h2
    · exact h2

/-- **C2, witness.**  The theorem at the concrete run: `b.ts` was edited
after scanning (its line 1 is now `xxx`), so its clean fails, it lands in
`errorFiles`, and its bytes are untouched. -/
theorem claim_C2_witness :
    cfs0 "b.ts".data = some "xxx".data ∧
    (cAnnB ∈ [cAnnA, cAnnB] ∧ cAnnB.filePath = "b.ts".data ∧
      badLine (splitNl "xxx".data) cAnnB) ∧
    ((∃ e, cleanFile DEFAULT_CLEAN_OPTIONS cfs0 "b.ts".data
        (sortDesc (([cAnnA, cAnnB]).filter fun c => c.filePath = "b.ts".data)) =
          .error e ∧ e.etype = .fileError) ∧
      "b.ts".data ∈ (removeComments [cAnnA, cAnnB] DEFAULT_CLEAN_OPTIONS cfs0).1.errorFiles ∧
      (removeComments [cAnnA, cAnnB] DEFAULT_CLEAN_OPTIONS cfs0).2 "b.ts".data =
        cfs0 "b.ts".data) :=
  ⟨by decide, ⟨by decide, by decide, by right; right; decide⟩,
   claim_C2 [cAnnA, cAnnB] DEFAULT_CLEAN_OPTIONS cfs0 "b.ts".data "xxx".data (by decide)
     ⟨cAnnB, by decide, by decide, by right; right; decide⟩⟩

/-! ## Scanner claims: over-long comments and per-file isolation -/

/-- A matched line whose trimmed content exceeds `MAX_COMMENT_LENGTH` aborts
the file's line scan with a `CONFIG_ERROR`. -/
theorem scanLines_error_of_long (p fpath : List Char) (ls : List (List Char)) (k : Nat)
    (hbad : ∃ l ∈ ls, ∃ cap, matchGhost p l = some cap ∧
      MAX_COMMENT_LENGTH < (trimList cap).length) :
    ∃ e, scanLines p fpath ls k = .error e ∧ e.etype = .configError := by
  induction ls generalizing k with
  | nil => simp at hbad
  | cons l rest ih =>
    rcases hm : matchGhost p l with _ | cap
    · rcases hbad with ⟨l', hl', cap', hm', hlen'⟩
      rcases List.mem_cons.mp hl' with rfl | hl''
      · rw [hm] at hm'
        exact absurd hm' (by simp)
      · rcases ih (k + 1) ⟨l', hl'', cap', hm', hlen'⟩ with ⟨e, he, het⟩
        refine ⟨e, ?_, het⟩
        simp only [scanLines, hm]
        exact he
    · by_cases hlen : MAX_COMMENT_LENGTH < (trimList cap).length
      · refine ⟨⟨.configError, "Comment too long"⟩, ?_, rfl⟩
        simp only [scanLines, hm]
        rw [if_pos hlen]
      · rcases hbad with ⟨l', hl', cap', hm', hlen'⟩
        rcases List.mem_cons.mp hl' with rfl | hl''
        · rw [hm] at hm'
          obtain rfl : cap = cap' := by injection hm'
          exact absurd hlen' hlen
        · rcases ih (k + 1) ⟨l', hl'', cap', hm', hlen'⟩ with ⟨e, he, het⟩
          refine ⟨e, ?_, het⟩
          simp only [scanLines, hm]
          rw [if_neg hlen, he]
          rfl

/-- The per-file scan accumulation used by `scanFiles`. -/
def scanStep (p : List Char) (acc : List Annotation) (f : List Char × List Char) :
    List Annotation :=
  match scanFile p f.1 f.2 with
  | .ok cs => acc ++ cs
  | .error _ => acc

theorem scanFiles_eq_fold (cfg : GhostCommentConfig) (files : List (List Char × List Char))
    (hv : validateScanConfig cfg = .ok ()) (hn : files.length ≤ MAX_FILES) :
    scanFiles cfg files = .ok (files.foldl (scanStep cfg.prefixStr) []) := by
  have hlt : ¬ MAX_FILES < files.length := by omega
  simp only [scanFiles, hv, bind, Except.bind, if_neg hlt]
  rfl

/-- The long ghost-comment line of the counterexample file. -/
def longLine : List Char := "// ".data ++ List.replicate 1001 'a'

/-- Counterexample file content: a perfectly fine annotation, then an
over-long one in the same file. -/
def fileAContent : List Char := "// early\n".data ++ longLine

/-- A valid scan configuration for prefix `//`. -/
def scfg : GhostCommentConfig := ⟨"//".data, ["**/*"], [], false⟩

theorem dropWhile_eq_self_of (l : List Char) (h : ∀ c ∈ l, isWs c = false) :
    l.dropWhile isWs = l := by
  cases l with
  | nil => rfl
  | cons c t =>
    rw [List.dropWhile_cons, h c (List.mem_cons_self _ _)]
    rfl

theorem trimList_eq_self (l : List Char) (h : ∀ c ∈ l, isWs c = false) :
    trimList l = l := by
  unfold trimList
  rw [dropWhile_eq_self_of l h,
    dropWhile_eq_self_of l.reverse (fun c hc => h c (List.mem_reverse.mp hc)),
    List.reverse_reverse]

theorem noWs_replicate_a : ∀ c ∈ List.replicate 1001 'a', isWs c = false := by
  intro c hc
  rw [List.eq_of_mem_replicate hc]
  decide

theorem trimList_replicate_length :
    (trimList (List.replicate 1001 'a')).length = 1001 := by
  rw [trimList_eq_self _ noWs_replicate_a, List.length_replicate]

theorem splitNl_no_newline (l : List Char) (h : ∀ c ∈ l, c ≠ '\n') : splitNl l = [l] := by
  induction l with
  | nil => rfl
  | cons c t ih =>
    have hc : c ≠ '\n' := h c (List.mem_cons_self _ _)
    rw [splitNl, if_neg hc, ih fun d hd => h d (List.mem_cons_of_mem _ hd)]

theorem splitNl_append_newline (a b : List Char) (h : ∀ c ∈ a, c ≠ '\n') :
    splitNl (a ++ '\n' :: b) = a :: splitNl b := by
  induction a with
  | nil =>
    show splitNl ('\n' :: b) = [] :: splitNl b
    rw [splitNl, if_pos rfl]
  | cons c t ih =>
    have hc : c ≠ '\n' := h c (List.mem_cons_self _ _)
    show splitNl (c :: (t ++ '\n' :: b)) = (c :: t) :: splitNl b
    rw [splitNl, if_neg hc, ih fun d hd => h d (List.mem_cons_of_mem _ hd)]

theorem splitNl_fileA : splitNl fileAContent = ["// early".data, longLine] := by
  have heq : fileAContent = "// early".data ++ '\n' :: longLine := rfl
  rw [heq, splitNl_append_newline _ _ (by decide),
    splitNl_no_newline longLine ?_]
  intro c hc
  rcases List.mem_append.mp hc with hl | hr
  · have : c = '/' ∨ c = '/' ∨ c = ' ' := by simpa using hl
    rcases this with rfl | rfl | rfl <;> decide
  · rw [List.eq_of_mem_replicate hr]
    decide

theorem scanLines_cons_none (p fpath l : List Char) (rest : List (List Char)) (idx : Nat)
    (hm : matchGhost p l = none) :
    scanLines p fpath (l :: rest) idx = scanLines p fpath rest (idx + 1) := by
  conv_lhs => unfold scanLines
  rw [hm]

theorem scanLines_cons_long (p fpath l : List Char) (rest : List (List Char)) (idx : Nat)
    (cap : List Char) (hm : matchGhost p l = some cap)
    (hlong : MAX_COMMENT_LENGTH < (trimList cap).length) :
    scanLines p fpath (l :: rest) idx = .error ⟨.configError, "Comment too long"⟩ := by
  conv_lhs => unfold scanLines
  rw [hm]
  show (if MAX_COMMENT_LENGTH < (trimList cap).length then
      (.error ⟨.configError, "Comment too long"⟩ : Except GCError (List Annotation))
    else (scanLines p fpath rest (idx + 1)).map
      fun anns => ⟨fpath, idx + 1, trimList cap, p, l⟩ :: anns) = _
  rw [if_pos hlong]

theorem scanLines_cons_short (p fpath l : List Char) (rest : List (List Char)) (idx : Nat)
    (cap : List Char) (hm : matchGhost p l = some cap)
    (hshort : ¬ MAX_COMMENT_LENGTH < (trimList cap).length) :
    scanLines p fpath (l :: rest) idx = (scanLines p fpath rest (idx + 1)).map
      fun anns => ⟨fpath, idx + 1, trimList cap, p, l⟩ :: anns := by
  conv_lhs => unfold scanLines
  rw [hm]
  show (if MAX_COMMENT_LENGTH < (trimList cap).length then
      (.error ⟨.configError, "Comment too long"⟩ : Except GCError (List Annotation))
    else (scanLines p fpath rest (idx + 1)).map
      fun anns => ⟨fpath, idx + 1, trimList cap, p, l⟩ :: anns) = _
  rw [if_neg hshort]

/-- A list of terminator-free characters has no `isLineTerm` hit. -/
theorem any_lineTerm_eq_false (l : List Char) (h : ∀ c ∈ l, isLineTerm c = false) :
    l.any isLineTerm = false := by
  cases hx : l.any isLineTerm
  · rfl
  · rcases List.any_eq_true.mp hx with ⟨c, hc, hct⟩
    rw [h c hc] at hct
    simp at hct

/-- Conversely, a failed `any isLineTerm` scan means every character is
terminator-free. -/
theorem lineTerm_free_of_any_false (l : List Char) (h : l.any isLineTerm = false) :
    ∀ c ∈ l, isLineTerm c = false := by
  intro c hc
  cases hct : isLineTerm c
  · rfl
  · have hx : l.any isLineTerm = true := List.any_eq_true.mpr ⟨c, hc, hct⟩
    rw [h] at hx
    simp at hx

theorem noLineTerm_replicate_a : ∀ c ∈ List.replicate 1001 'a', isLineTerm c = false := by
  intro c hc
  rw [List.eq_of_mem_replicate hc]
  decide

/-- `tryAt` at an anchoring offset, spelled out for rewriting. -/
theorem tryAt_eq_some (p line : List Char) (i : Nat) (S : List Char)
    (hpre : p.isPrefixOf (line.drop i) = true)
    (hS : line.drop (i + p.length) = S) (n : Nat) (hn : S.length = n + 1) (j : Nat)
    (hj : min (wsRun S) n = j) (hterm : (S.drop j).any isLineTerm = false) :
    tryAt p line i = some (S.drop j) := by
  unfold tryAt
  rw [if_pos hpre, hS, hn, if_neg (by omega : ¬ (n + 1 = 0)),
    show n + 1 - 1 = n by omega, hj, hterm]
  simp

theorem matchGhost_longLine :
    matchGhost "//".data longLine = some (List.replicate 1001 'a') := by
  show matchGhostAux "//".data longLine (wsRun longLine) = _
  rw [show wsRun longLine = 0 from rfl]
  show tryAt "//".data longLine 0 = _
  rw [tryAt_eq_some "//".data longLine 0 (' ' :: List.replicate 1001 'a') rfl rfl 1001
    (by rw [List.length_cons, List.length_replicate]) 1
    (by rw [show wsRun (' ' :: List.replicate 1001 'a') = 1 from rfl]; omega)
    (by rw [show (' ' :: List.replicate 1001 'a').drop 1 = List.replicate 1001 'a' from rfl]
        exact any_lineTerm_eq_false _ noLineTerm_replicate_a)]
  rfl

theorem scanFile_fileA :
    scanFile "//".data "a".data fileAContent =
      .error ⟨.configError, "Comment too long"⟩ := by
  have hm1 : matchGhost "//".data ("// early".data) = some "early".data := by decide
  have hlen1 : ¬ MAX_COMMENT_LENGTH < (trimList "early".data).length := by decide
  have hlen2 : MAX_COMMENT_LENGTH < (trimList (List.replicate 1001 'a')).length := by
    rw [trimList_replicate_length]
    decide
  unfold scanFile
  rw [splitNl_fileA]
  rw [scanLines_cons_short "//".data "a".data _ _ 0 "early".data hm1 hlen1]
  rw [scanLines_cons_long "//".data "a".data _ _ 1 (List.replicate 1001 'a')
    matchGhost_longLine hlen2]
  rfl

theorem scanFile_fileB :
    scanFile "//".data "b".data ("// fine".data) =
      .ok [⟨"b".data, 1, "fine".data, "//".data, "// fine".data⟩] := by
  rfl

/-- **C7, counterexample.**  With a file whose matched line has trimmed
content of 1001 characters, that file's scan does fail with a
`CONFIG_ERROR` — but `scanFiles` does not: the whole scan completes and
returns the other file's annotation list, so the scan is *not* failed as a
whole. -/
theorem claim_C7_counterexample :
    scanFile "//".data "a".data fileAContent =
      .error ⟨.configError, "Comment too long"⟩ ∧
    scanFiles scfg [("a".data, fileAContent), ("b".data, "// fine".data)] =
      .ok [⟨"b".data, 1, "fine".data, "//".data, "// fine".data⟩] := by
  refine ⟨scanFile_fileA, ?_⟩
  rw [scanFiles_eq_fold scfg _ rfl (by decide)]
  show Except.ok
      ([("a".data, fileAContent), ("b".data, "// fine".data)].foldl (scanStep "//".data) [])
    = _
  rw [List.foldl_cons, List.foldl_cons, List.foldl_nil]
  have h1 : scanStep "//".data [] ("a".data, fileAContent) = [] := by
    simp only [scanStep]
    rw [scanFile_fileA]
  rw [h1]
  have h2 : scanStep "//".data [] ("b".data, "// fine".data) =
      [⟨"b".data, 1, "fine".data, "//".data, "// fine".data⟩] := by
    simp only [scanStep]
    rw [scanFile_fileB]
    rfl
  rw [h2]

/-- **C7, amended.**  A matched line whose trimmed content exceeds
`MAX_COMMENT_LENGTH` fails that *file's* scan with a `CONFIG_ERROR`-class
violation (that file contributes no annotations at all, even earlier ones),
but `scanFiles` isolates the failure like any per-file error: for a valid
configuration within the file-count ceiling the whole scan still returns
the concatenated annotations of the files that scanned successfully. -/
theorem claim_C7 (p fpath content : List Char) (cfg : GhostCommentConfig)
    (files : List (List Char × List Char))
    (hbad : ∃ l ∈ splitNl content, ∃ cap, matchGhost p l = some cap ∧
      MAX_COMMENT_LENGTH < (trimList cap).length)
    (hv : validateScanConfig cfg = .ok ()) (hn : files.length ≤ MAX_FILES) :
    (∃ e, scanFile p fpath content = .error e ∧ e.etype = .configError) ∧
    scanFiles cfg files = .ok (files.foldl (scanStep cfg.prefixStr) []) := by
  exact ⟨scanLines_error_of_long p fpath (splitNl content) 0 hbad,
    scanFiles_eq_fold cfg files hv hn⟩

/-- **C7, witness.**  The amended theorem on the two-file counterexample
input. -/
theorem claim_C7_witness :
    ((∃ e, scanFile "//".data "a".data fileAContent = .error e ∧
        e.etype = .configError) ∧
      scanFiles scfg [("a".data, fileAContent), ("b".data, "// fine".data)] =
        .ok ([("a".data, fileAContent), ("b".data, "// fine".data)].foldl
          (scanStep scfg.prefixStr) [])) :=
  claim_C7 "//".data "a".data fileAContent scfg
    [("a".data, fileAContent), ("b".data, "// fine".data)]
    ⟨longLine, by rw [splitNl_fileA]; exact List.mem_cons_of_mem _ (List.mem_cons_self _ _),
      List.replicate 1001 'a', matchGhost_longLine,
      by rw [trimList_replicate_length]; decide⟩
    rfl (by decide)

/-! ## Scan versus count -/

/-- When no matched line is over-long, the line scan succeeds and produces
exactly one annotation per matching line. -/
theorem scanLines_ok_count (p fpath : List Char) (ls : List (List Char)) (k : Nat)
    (hok : ∀ l ∈ ls, ∀ cap, matchGhost p l = some cap →
      (trimList cap).length ≤ MAX_COMMENT_LENGTH) :
    ∃ anns, scanLines p fpath ls k = .ok anns ∧
      anns.length = ls.countP (fun l => (matchGhost p l).isSome) := by
  induction ls generalizing k with
  | nil => exact ⟨[], rfl, rfl⟩
  | cons l rest ih =>
    rcases ih (k + 1) (fun l' hl' => hok l' (List.mem_cons_of_mem _ hl')) with
      ⟨anns, ha, hlen⟩
    rcases hm : matchGhost p l with _ | cap
    · refine ⟨anns, ?_, ?_⟩
      · rw [scanLines_cons_none p fpath l rest k hm]
        exact ha
      · rw [hlen]
        simp [List.countP_cons, hm]
    · have hsh : ¬ MAX_COMMENT_LENGTH < (trimList cap).length := by
        have := hok l (List.mem_cons_self _ _) cap hm
        omega
      refine ⟨⟨fpath, k + 1, trimList cap, p, l⟩ :: anns, ?_, ?_⟩
      · rw [scanLines_cons_short p fpath l rest k cap hm hsh, ha]
        rfl
      · simp [List.countP_cons, hm, hlen]

/-- The scan fold produces exactly as many annotations as the count fold
counts, provided every matched line is within the length ceiling. -/
theorem scanFold_count (p : List Char) (files : List (List Char × List Char))
    (hok : ∀ f ∈ files, ∀ l ∈ splitNl f.2, ∀ cap, matchGhost p l = some cap →
      (trimList cap).length ≤ MAX_COMMENT_LENGTH) :
    ∀ acc : List Annotation,
      (files.foldl (scanStep p) acc).length =
        files.foldl (fun n f => n + countFile p f.2) acc.length := by
  induction files with
  | nil => intro acc; rfl
  | cons f rest ih =>
    intro acc
    rcases scanLines_ok_count p f.1 (splitNl f.2) 0
      (hok f (List.mem_cons_self _ _)) with ⟨anns, ha, hlen⟩
    rw [List.foldl_cons, List.foldl_cons]
    have hstep : scanStep p acc f = acc ++ anns := by
      simp only [scanStep, scanFile, ha]
    rw [hstep, ih (fun g hg => hok g (List.mem_cons_of_mem _ hg)) (acc ++ anns)]
    have : (acc ++ anns).length = acc.length + countFile p f.2 := by
      rw [List.length_append, hlen]
      rfl
    rw [this]

theorem countGhostComments_eq_fold (cfg : GhostCommentConfig)
    (files : List (List Char × List Char)) (hv : validateScanConfig cfg = .ok ())
    (hn : files.length ≤ MAX_FILES) :
    countGhostComments cfg files =
      .ok (files.foldl (fun n f => n + countFile cfg.prefixStr f.2) 0) := by
  have hlt : ¬ MAX_FILES < files.length := by omega
  simp only [countGhostComments, hv, bind, Except.bind, if_neg hlt]

/-- **C9, counterexample.**  A file tree whose single matched line has
trimmed content of 1001 characters: the scan drops the whole file (its scan
fails on the over-long comment) and returns an empty annotation list, while
the counting operation — which never checks `MAX_COMMENT_LENGTH` — still
counts the matching line, returning 1 ≠ 0. -/
theorem claim_C9_counterexample :
    scanFiles scfg [("a".data, longLine)] = .ok [] ∧
    countGhostComments scfg [("a".data, longLine)] = .ok 1 := by
  have hnonl : ∀ c ∈ longLine, c ≠ '\n' := by
    intro c hc
    rcases List.mem_append.mp hc with hl | hr
    · have : c = '/' ∨ c = '/' ∨ c = ' ' := by simpa using hl
      rcases this with rfl | rfl | rfl <;> decide
    · rw [List.eq_of_mem_replicate hr]
      decide
  have hsplit : splitNl longLine = [longLine] := splitNl_no_newline _ hnonl
  constructor
  · rw [scanFiles_eq_fold scfg _ rfl (by decide)]
    have hscan : scanFile "//".data "a".data longLine =
        .error ⟨.configError, "Comment too long"⟩ := by
      unfold scanFile
      rw [hsplit, scanLines_cons_long "//".data "a".data _ _ 0 (List.replicate 1001 'a')
        matchGhost_longLine (by rw [trimList_replicate_length]; decide)]
    rw [List.foldl_cons, List.foldl_nil]
    have h1 : scanStep "//".data [] ("a".data, longLine) = [] := by
      simp only [scanStep]
      rw [hscan]
    show Except.ok (scanStep "//".data [] ("a".data, longLine)) = Except.ok []
    rw [h1]
  · rw [countGhostComments_eq_fold scfg _ rfl (by decide)]
    rw [List.foldl_cons, List.foldl_nil]
    have h1 : countFile "//".data longLine = 1 := by
      unfold countFile
      rw [hsplit, List.countP_cons, matchGhost_longLine]
      rfl
    rw [show scfg.prefixStr = "//".data from rfl,
      show (("a".data, longLine) : List Char × List Char).2 = longLine from rfl, h1]

/-- **C9, amended.**  For every valid configuration and resolved file set
within the ceiling, *provided no matched line's trimmed content exceeds
`MAX_COMMENT_LENGTH`*, the counting operation returns exactly the number of
annotations the scan returns: both perform the same per-line prefix matching
over the same file set. -/
theorem claim_C9 (cfg : GhostCommentConfig) (files : List (List Char × List Char))
    (hv : validateScanConfig cfg = .ok ()) (hn : files.length ≤ MAX_FILES)
    (hok : ∀ f ∈ files, ∀ l ∈ splitNl f.2, ∀ cap, matchGhost cfg.prefixStr l = some cap →
      (trimList cap).length ≤ MAX_COMMENT_LENGTH) :
    ∃ anns, scanFiles cfg files = .ok anns ∧
      countGhostComments cfg files = .ok anns.length := by
  refine ⟨files.foldl (scanStep cfg.prefixStr) [], scanFiles_eq_fold cfg files hv hn, ?_⟩
  rw [countGhostComments_eq_fold cfg files hv hn]
  exact congrArg Except.ok (scanFold_count cfg.prefixStr files hok []).symm

/-- **C9, witness.**  The amended equivalence at a one-file tree with a
single short annotation. -/
theorem claim_C9_witness :
    ∃ anns, scanFiles scfg [("b".data, "// fine".data)] = .ok anns ∧
      countGhostComments scfg [("b".data, "// fine".data)] = .ok anns.length :=
  claim_C9 scfg [("b".data, "// fine".data)] rfl (by decide)
    (by
      intro f hf l hl cap hm
      simp only [List.mem_singleton] at hf
      subst hf
      rw [show splitNl (("b".data, "// fine".data) : List Char × List Char).2 =
        ["// fine".data] from by decide] at hl
      simp only [List.mem_singleton] at hl
      subst hl
      rw [show matchGhost scfg.prefixStr ("// fine".data) = some "fine".data from by
        decide] at hm
      obtain rfl : cap = "fine".data := by
        injection hm with h
        exact h.symm
      decide)

/-! ## Whitespace-run and trim lemmas for the regex model -/

theorem wsRun_cons (c : Char) (t : List Char) :
    wsRun (c :: t) = if isWs c then wsRun t + 1 else 0 := rfl

theorem wsRun_le_length (l : List Char) : wsRun l ≤ l.length := by
  induction l with
  | nil => simp [wsRun]
  | cons c t ih =>
    rw [wsRun_cons]
    split
    · simpa using ih
    · simp

theorem ws_of_mem_take_wsRun (l : List Char) (i : Nat) (hi : i ≤ wsRun l) :
    ∀ c ∈ l.take i, isWs c = true := by
  induction l generalizing i with
  | nil => simp
  | cons c t ih =>
    cases i with
    | zero => simp
    | succ j =>
      rw [wsRun_cons] at hi
      rcases hw : isWs c with hf | ht
      · rw [if_neg (by simp [hw])] at hi
        simp at hi
      · rw [if_pos hw] at hi
        intro d hd
        rcases List.mem_cons.mp (by simpa using hd) with rfl | hd'
        · exact hw
        · exact ih j (by omega) d hd'

theorem le_wsRun_append (w r : List Char) (h : ∀ c ∈ w, isWs c = true) :
    w.length ≤ wsRun (w ++ r) := by
  induction w with
  | nil => simp
  | cons c t ih =>
    show (c :: t).length ≤ wsRun (c :: (t ++ r))
    rw [wsRun_cons, if_pos (h c (List.mem_cons_self _ _))]
    have := ih fun d hd => h d (List.mem_cons_of_mem _ hd)
    simp only [List.length_cons]
    omega

theorem wsRun_eq_of (l : List Char) (n : Nat) (hn : n < l.length)
    (hws : ∀ c ∈ l.take n, isWs c = true) (hnw : isWs (l.get ⟨n, hn⟩) = false) :
    wsRun l = n := by
  induction l generalizing n with
  | nil => simp at hn
  | cons c t ih =>
    cases n with
    | zero =>
      simp only [List.get_eq_getElem, List.getElem_cons_zero] at hnw
      rw [wsRun_cons, if_neg (by simp [hnw])]
    | succ m =>
      have hc : isWs c = true := hws c (by simp)
      rw [wsRun_cons, if_pos hc]
      have hm : m < t.length := by simpa using hn
      rw [ih m hm (fun d hd => hws d (by simpa using List.mem_cons_of_mem c hd))
        (by simpa using hnw)]

theorem not_ws_get_wsRun (l : List Char) (h : wsRun l < l.length) :
    isWs (l.get ⟨wsRun l, h⟩) = false := by
  induction l with
  | nil => simp at h
  | cons c t ih =>
    by_cases hw : isWs c = true
    · have h1 : wsRun (c :: t) = wsRun t + 1 := by rw [wsRun_cons, if_pos hw]
      have ht' : wsRun t < t.length := by
        have h2 := h
        rw [h1] at h2
        simpa using h2
      simp only [List.get_eq_getElem, h1, List.getElem_cons_succ]
      simpa using ih ht'
    · have h0 : wsRun (c :: t) = 0 := by rw [wsRun_cons, if_neg hw]
      simp only [List.get_eq_getElem, h0, List.getElem_cons_zero]
      exact Bool.eq_false_iff.mpr hw

theorem wsOnly_iff_wsRun (l : List Char) : wsOnly l = true ↔ wsRun l = l.length := by
  constructor
  · intro h
    have hall := List.all_eq_true.mp h
    have h1 : l.length ≤ wsRun (l ++ []) := le_wsRun_append l [] hall
    rw [List.append_nil] at h1
    exact Nat.le_antisymm (wsRun_le_length l) h1
  · intro h
    refine List.all_eq_true.mpr fun c hc => ?_
    have := ws_of_mem_take_wsRun l l.length (by omega)
    rw [List.take_length] at this
    exact this c hc

theorem dropWhile_eq_drop_wsRun (l : List Char) : l.dropWhile isWs = l.drop (wsRun l) := by
  induction l with
  | nil => rfl
  | cons c t ih =>
    rw [List.dropWhile_cons, wsRun_cons]
    rcases hw : isWs c with hf | ht
    · rw [if_neg (by simp), if_neg (by simp)]
      rfl
    · rw [if_pos rfl, if_pos rfl, ih]
      rfl

theorem wsRun_drop (l : List Char) (j : Nat) (hj : j ≤ wsRun l) :
    wsRun (l.drop j) = wsRun l - j := by
  induction l generalizing j with
  | nil => simp [wsRun]
  | cons c t ih =>
    cases j with
    | zero => simp
    | succ m =>
      rw [wsRun_cons] at hj ⊢
      by_cases hw : isWs c = true
      · rw [if_pos hw] at hj ⊢
        rw [List.drop_succ_cons, ih m (by omega)]
        omega
      · rw [if_neg hw] at hj
        simp at hj

theorem trimList_drop_of_le_wsRun (S : List Char) (j : Nat) (hj : j ≤ wsRun S) :
    trimList (S.drop j) = trimList S := by
  unfold trimList
  simp only [dropWhile_eq_drop_wsRun]
  rw [wsRun_drop S j hj, List.drop_drop, show j + (wsRun S - j) = wsRun S by omega]

theorem trimList_ws_append (v t : List Char) (h : ∀ c ∈ v, isWs c = true) :
    trimList (v ++ t) = trimList t := by
  unfold trimList
  congr 1
  congr 1
  induction v with
  | nil => rfl
  | cons c w ih =>
    rw [List.cons_append, List.dropWhile_cons, if_pos (h c (List.mem_cons_self _ _))]
    exact ih fun d hd => h d (List.mem_cons_of_mem _ hd)

/-! ## Characterization of the regex model -/

/-- A feasible anchoring offset: the literal prefix occurs at `i`, at least
one character follows it, and the candidate capture is free of line
terminators. -/
def feasAt (p line : List Char) (i : Nat) : Prop :=
  p.isPrefixOf (line.drop i) = true ∧ line.drop (i + p.length) ≠ [] ∧
  ((line.drop (i + p.length)).drop
    (min (wsRun (line.drop (i + p.length)))
      ((line.drop (i + p.length)).length - 1))).any isLineTerm = false

theorem matchGhostAux_zero (p line : List Char) :
    matchGhostAux p line 0 = tryAt p line 0 := rfl

theorem matchGhostAux_succ (p line : List Char) (n : Nat) :
    matchGhostAux p line (n + 1) =
      ((tryAt p line (n + 1)).orElse fun _ => matchGhostAux p line n) := rfl

theorem tryAt_some_of_feas (p line : List Char) (i : Nat) (h : feasAt p line i) :
    ∃ cap, tryAt p line i = some cap := by
  obtain ⟨hpre, hne, hterm⟩ := h
  refine ⟨(line.drop (i + p.length)).drop
    (min (wsRun (line.drop (i + p.length))) ((line.drop (i + p.length)).length - 1)), ?_⟩
  unfold tryAt
  rw [if_pos hpre, if_neg fun hz => hne (List.length_eq_zero.mp hz), hterm]
  simp

theorem tryAt_spec (p line : List Char) (i : Nat) (cap : List Char)
    (h : tryAt p line i = some cap) :
    feasAt p line i ∧
    cap = (line.drop (i + p.length)).drop
      (min (wsRun (line.drop (i + p.length))) ((line.drop (i + p.length)).length - 1)) := by
  unfold tryAt at h
  by_cases h1 : p.isPrefixOf (line.drop i) = true
  · rw [if_pos h1] at h
    by_cases h2 : (line.drop (i + p.length)).length = 0
    · rw [if_pos h2] at h
      exact absurd h (by simp)
    · rw [if_neg h2] at h
      by_cases h3 : ((line.drop (i + p.length)).drop
          (min (wsRun (line.drop (i + p.length)))
            ((line.drop (i + p.length)).length - 1))).any isLineTerm = true
      · rw [if_pos h3] at h
        exact absurd h (by simp)
      · rw [if_neg h3] at h
        refine ⟨⟨h1, fun hnil => h2 (by rw [hnil]; rfl), Bool.eq_false_iff.mpr h3⟩, ?_⟩
        injection h with h4
        exact h4.symm
  · rw [if_neg h1] at h
    exact absurd h (by simp)

theorem matchGhostAux_some (p line : List Char) :
    ∀ n, (∃ i, i ≤ n ∧ feasAt p line i) → ∃ cap, matchGhostAux p line n = some cap := by
  intro n
  induction n with
  | zero =>
    rintro ⟨i, hi, hfeas⟩
    interval_cases i
    rw [matchGhostAux_zero]
    exact tryAt_some_of_feas p line 0 hfeas
  | succ n ih =>
    rintro ⟨i, hi, hfeas⟩
    rw [matchGhostAux_succ]
    rcases htry : tryAt p line (n + 1) with _ | cap
    · rcases Nat.lt_or_ge i (n + 1) with hlt | hge
      · rcases ih ⟨i, by omega, hfeas⟩ with ⟨cap, hcap⟩
        exact ⟨cap, hcap⟩
      · obtain rfl : i = n + 1 := by omega
        rcases tryAt_some_of_feas p line (n + 1) hfeas with ⟨cap, hcap⟩
        rw [htry] at hcap
        exact absurd hcap (by simp)
    · exact ⟨cap, rfl⟩

theorem matchGhostAux_spec (p line : List Char) :
    ∀ n cap, matchGhostAux p line n = some cap →
      ∃ i, i ≤ n ∧ tryAt p line i = some cap := by
  intro n
  induction n with
  | zero =>
    intro cap h
    exact ⟨0, le_refl 0, by rw [← matchGhostAux_zero]; exact h⟩
  | succ n ih =>
    intro cap h
    rw [matchGhostAux_succ] at h
    rcases htry : tryAt p line (n + 1) with _ | cap'
    · rw [htry] at h
      rcases ih cap (by exact h) with ⟨i, hi, hcap⟩
      exact ⟨i, by omega, hcap⟩
    · rw [htry] at h
      refine ⟨n + 1, le_refl _, ?_⟩
      rw [htry]
      exact h.symm ▸ rfl

/-- Completeness: a line of the form `⟨ws⟩⟨prefix⟩⟨ws⟩⟨nonempty
terminator-free text⟩` matches the regex. -/
theorem matchGhost_complete (p line w v t : List Char)
    (hline : line = w ++ p ++ v ++ t) (hw : wsOnly w = true) (hv : wsOnly v = true)
    (ht : t ≠ []) (htm : ∀ c ∈ t, isLineTerm c = false) :
    ∃ cap, matchGhost p line = some cap := by
  have hwall := List.all_eq_true.mp hw
  have hile : w.length ≤ wsRun line := by
    rw [hline, show w ++ p ++ v ++ t = w ++ (p ++ v ++ t) by simp [List.append_assoc]]
    exact le_wsRun_append w _ hwall
  have hdrop : line.drop w.length = p ++ (v ++ t) := by
    rw [hline, show w ++ p ++ v ++ t = w ++ (p ++ (v ++ t)) by simp [List.append_assoc]]
    exact List.drop_left w _
  have hpre : p.isPrefixOf (line.drop w.length) = true := by
    rw [hdrop]
    exact List.isPrefixOf_iff_prefix.mpr ⟨v ++ t, rfl⟩
  have hS : line.drop (w.length + p.length) = v ++ t := by
    rw [hline, show w ++ p ++ v ++ t = (w ++ p) ++ (v ++ t) by simp [List.append_assoc],
      show w.length + p.length = (w ++ p).length by simp]
    exact List.drop_left _ _
  have hne : line.drop (w.length + p.length) ≠ [] := by
    rw [hS]
    intro hx
    exact ht (List.append_eq_nil.mp hx).2
  have htnil : 1 ≤ t.length := by
    rcases t with _ | ⟨c, t'⟩
    · exact absurd rfl ht
    · simp
  have hvle : v.length ≤ min (wsRun (v ++ t)) ((v ++ t).length - 1) := by
    have h1 : v.length ≤ wsRun (v ++ t) := le_wsRun_append v t (List.all_eq_true.mp hv)
    have h2 : (v ++ t).length = v.length + t.length := by simp
    omega
  have hterm : ((line.drop (w.length + p.length)).drop
      (min (wsRun (line.drop (w.length + p.length)))
        ((line.drop (w.length + p.length)).length - 1))).any isLineTerm = false := by
    rw [hS]
    have hdropeq : (v ++ t).drop (min (wsRun (v ++ t)) ((v ++ t).length - 1)) =
        t.drop (min (wsRun (v ++ t)) ((v ++ t).length - 1) - v.length) := by
      conv_lhs => rw [show min (wsRun (v ++ t)) ((v ++ t).length - 1) =
        v.length + (min (wsRun (v ++ t)) ((v ++ t).length - 1) - v.length) from by omega]
      rw [← List.drop_drop, List.drop_left]
    rw [hdropeq]
    exact any_lineTerm_eq_false _ fun c hc => htm c (List.mem_of_mem_drop hc)
  exact matchGhostAux_some p line (wsRun line) ⟨w.length, hile, hpre, hne, hterm⟩

/-- Soundness: a matching line decomposes as
`⟨ws⟩⟨prefix⟩⟨ws⟩⟨nonempty capture⟩`, the capture being the final,
line-terminator-free piece. -/
theorem matchGhost_sound (p line cap : List Char) (h : matchGhost p line = some cap) :
    ∃ w v t, line = w ++ p ++ v ++ t ∧ wsOnly w = true ∧ wsOnly v = true ∧ t ≠ [] ∧
      (∀ c ∈ t, isLineTerm c = false) ∧ cap = t := by
  rcases matchGhostAux_spec p line (wsRun line) cap h with ⟨i, hi, htry⟩
  rcases tryAt_spec p line i cap htry with ⟨⟨hpre, hne, hterm⟩, hcap⟩
  rcases List.isPrefixOf_iff_prefix.mp hpre with ⟨r, hr⟩
  have hS : line.drop (i + p.length) = r := by
    rw [← List.drop_drop, ← hr, List.drop_left]
  rw [hS] at hterm
  have hSlen : 1 ≤ r.length := by
    rcases r with _ | ⟨c, r'⟩
    · exact absurd (hS.symm ▸ rfl) hne
    · simp
  set j := min (wsRun r) (r.length - 1) with hj
  have hjle : j ≤ wsRun r := min_le_left _ _
  have hjlt : j < r.length := by
    have := min_le_right (wsRun r) (r.length - 1)
    omega
  refine ⟨line.take i, r.take j, r.drop j, ?_, ?_, ?_, ?_, ?_, ?_⟩
  · conv_lhs => rw [← List.take_append_drop i line, ← hr]
    simp only [List.append_assoc, List.take_append_drop]
  · exact List.all_eq_true.mpr (ws_of_mem_take_wsRun line i hi)
  · exact List.all_eq_true.mpr (ws_of_mem_take_wsRun r j hjle)
  · intro hx
    have := congrArg List.length hx
    simp only [List.length_drop, List.length_nil] at this
    omega
  · exact lineTerm_free_of_any_false _ hterm
  · rw [hcap, hS]

/-- The captured text and any decomposition's text agree after trimming:
the sub-list `line.drop (i + |p|)` has the same trim for every feasible
anchoring offset `i` within the leading whitespace run. -/
theorem trim_drop_invariance_le (p line : List Char) (i i' : Nat) (hle : i ≤ i')
    (hi : i ≤ wsRun line) (hi' : i' ≤ wsRun line)
    (hpre : p.isPrefixOf (line.drop i) = true)
    (hpre' : p.isPrefixOf (line.drop i') = true) :
    trimList (line.drop (i + p.length)) = trimList (line.drop (i' + p.length)) := by
  rcases List.isPrefixOf_iff_prefix.mp hpre with ⟨r, hr⟩
  rcases List.isPrefixOf_iff_prefix.mp hpre' with ⟨r', hr'⟩
  have hS : line.drop (i + p.length) = r := by
    rw [← List.drop_drop, ← hr, List.drop_left]
  have hS' : line.drop (i' + p.length) = r' := by
    rw [← List.drop_drop, ← hr', List.drop_left]
  have hilen : i ≤ line.length := le_trans hi (wsRun_le_length line)
  have hilen' : i' ≤ line.length := le_trans hi' (wsRun_le_length line)
  have hlb' : i' + p.length ≤ line.length := by
    have : (line.drop i').length = p.length + r'.length := by rw [← hr']; simp
    simp only [List.length_drop] at this
    omega
  by_cases hp : wsOnly p = true
  · -- whitespace-only prefix: everything before the text is whitespace
    have hpall := List.all_eq_true.mp hp
    have htake_ws : ∀ c ∈ line.take (i' + p.length), isWs c = true := by
      rw [List.take_add]
      intro c hc
      rcases List.mem_append.mp hc with hc1 | hc2
      · exact ws_of_mem_take_wsRun line i' hi' c hc1
      · have : (line.drop i').take p.length = p := by
          rw [← hr', List.take_left]
        rw [this] at hc2
        exact hpall c hc2
    have hsplit : line.drop (i + p.length) =
        (line.take (i' + p.length)).drop (i + p.length) ++ line.drop (i' + p.length) := by
      conv_lhs => rw [← List.take_append_drop (i' + p.length) line]
      rw [List.drop_append_of_le_length]
      rw [List.length_take]
      omega
    rw [hsplit, trimList_ws_append]
    intro c hc
    exact htake_ws c (List.mem_of_mem_drop hc)
  · -- the prefix has a non-whitespace anchor: the offset is forced
    have hk : wsRun p < p.length := by
      rcases Nat.lt_or_ge (wsRun p) p.length with h | h
      · exact h
      · exact absurd ((wsOnly_iff_wsRun p).mpr (Nat.le_antisymm (wsRun_le_length p)
          h ▸ rfl)) hp
    obtain rfl : i = i' := by
      have key : ∀ m r0, m ≤ wsRun line → p ++ r0 = line.drop m → wsRun line = m + wsRun p := by
        intro m r0 hm hr0
        have hmlen : m ≤ line.length := le_trans hm (wsRun_le_length line)
        have hmplen : m + p.length ≤ line.length := by
          have : (line.drop m).length = p.length + r0.length := by rw [← hr0]; simp
          simp only [List.length_drop] at this
          omega
        have hlt : m + wsRun p < line.length := by omega
        refine wsRun_eq_of line (m + wsRun p) hlt ?_ ?_
        · rw [List.take_add]
          intro c hc
          rcases List.mem_append.mp hc with hc1 | hc2
          · exact ws_of_mem_take_wsRun line m hm c hc1
          · have htk : (line.drop m).take (wsRun p) = p.take (wsRun p) := by
              rw [← hr0, List.take_append_of_le_length (le_of_lt hk)]
            rw [htk] at hc2
            exact ws_of_mem_take_wsRun p (wsRun p) (le_refl _) c hc2
        · have hdp : wsRun p < (line.drop m).length := by
            simp only [List.length_drop]
            omega
          have h1 : line.get ⟨m + wsRun p, hlt⟩ = (line.drop m).get ⟨wsRun p, hdp⟩ := by
            simp only [List.get_eq_getElem]
            rw [List.getElem_drop]
          have h2 : (line.drop m).get ⟨wsRun p, hdp⟩ = p.get ⟨wsRun p, hk⟩ := by
            simp only [List.get_eq_getElem]
            simp only [← hr0]
            rw [List.getElem_append_left hk]
          rw [h1, h2]
          exact not_ws_get_wsRun p hk
      have e1 := key i r hi hr
      have e2 := key i' r' hi' hr'
      omega
    rfl

theorem trim_drop_invariance (p line : List Char) (i i' : Nat)
    (hi : i ≤ wsRun line) (hi' : i' ≤ wsRun line)
    (hpre : p.isPrefixOf (line.drop i) = true)
    (hpre' : p.isPrefixOf (line.drop i') = true) :
    trimList (line.drop (i + p.length)) = trimList (line.drop (i' + p.length)) := by
  rcases le_total i i' with h | h
  · exact trim_drop_invariance_le p line i i' h hi hi' hpre hpre'
  · exact (trim_drop_invariance_le p line i' i h hi' hi hpre' hpre).symm

/-- The trimmed capture equals the trimmed text of *any* valid
decomposition of the line. -/
theorem matchGhost_capture_trim (p line cap w v t : List Char)
    (h : matchGhost p line = some cap) (hline : line = w ++ p ++ v ++ t)
    (hw : wsOnly w = true) (hv : wsOnly v = true) (ht : t ≠ []) :
    trimList cap = trimList t := by
  rcases matchGhostAux_spec p line (wsRun line) cap h with ⟨i, hi, htry⟩
  rcases tryAt_spec p line i cap htry with ⟨⟨hpre, hne, -⟩, hcap⟩
  -- the capture trims like the suffix after the prefix at offset i
  have h1 : trimList cap = trimList (line.drop (i + p.length)) := by
    rw [hcap]
    exact trimList_drop_of_le_wsRun _ _ (min_le_left _ _)
  -- the decomposition's text trims like the suffix at offset |w|
  have hwall := List.all_eq_true.mp hw
  have hile : w.length ≤ wsRun line := by
    rw [hline, show w ++ p ++ v ++ t = w ++ (p ++ v ++ t) by simp [List.append_assoc]]
    exact le_wsRun_append w _ hwall
  have hdrop : line.drop w.length = p ++ (v ++ t) := by
    rw [hline, show w ++ p ++ v ++ t = w ++ (p ++ (v ++ t)) by simp [List.append_assoc]]
    exact List.drop_left w _
  have hpre' : p.isPrefixOf (line.drop w.length) = true := by
    rw [hdrop]
    exact List.isPrefixOf_iff_prefix.mpr ⟨v ++ t, rfl⟩
  have hS' : line.drop (w.length + p.length) = v ++ t := by
    rw [hline, show w ++ p ++ v ++ t = (w ++ p) ++ (v ++ t) by simp [List.append_assoc],
      show w.length + p.length = (w ++ p).length by simp]
    exact List.drop_left _ _
  have h2 : trimList (line.drop (w.length + p.length)) = trimList t := by
    rw [hS']
    exact trimList_ws_append v t (List.all_eq_true.mp hv)
  rw [h1, trim_drop_invariance p line i w.length hi hile hpre hpre', h2]

/-! ## Per-line annotation production -/

theorem scanLines_lineNumber_bound (p fpath : List Char) (ls : List (List Char)) (k : Nat)
    (anns : List Annotation) (h : scanLines p fpath ls k = .ok anns) :
    ∀ a ∈ anns, k + 1 ≤ a.lineNumber := by
  induction ls generalizing k anns with
  | nil =>
    obtain rfl : ([] : List Annotation) = anns := by simpa [scanLines] using h
    simp
  | cons l rest ih =>
    rcases hm : matchGhost p l with _ | cap
    · rw [scanLines_cons_none p fpath l rest k hm] at h
      intro a ha
      have := ih (k + 1) anns h a ha
      omega
    · by_cases hlong : MAX_COMMENT_LENGTH < (trimList cap).length
      · rw [scanLines_cons_long p fpath l rest k cap hm hlong] at h
        exact absurd h (by simp)
      · rw [scanLines_cons_short p fpath l rest k cap hm hlong] at h
        rcases hrest : scanLines p fpath rest (k + 1) with e | anns'
        · rw [hrest] at h
          exact absurd h (by simp [Except.map])
        · rw [hrest] at h
          obtain rfl : (⟨fpath, k + 1, trimList cap, p, l⟩ : Annotation) :: anns' = anns := by
            simpa [Except.map] using h
          intro a ha
          rcases List.mem_cons.mp ha with rfl | ha'
          · simp
          · have := ih (k + 1) anns' hrest a ha'
            omega

/-- Exactly which annotations a successful line scan attaches to the `i`-th
line: one if the line matches (with trimmed capture and the raw line), none
otherwise. -/
theorem scanLines_filter (p fpath : List Char) (ls : List (List Char)) (k : Nat)
    (anns : List Annotation) (h : scanLines p fpath ls k = .ok anns) :
    ∀ i, (hi : i < ls.length) →
      anns.filter (fun a => a.lineNumber = k + i + 1) =
        (match matchGhost p (ls.get ⟨i, hi⟩) with
         | some cap => [⟨fpath, k + i + 1, trimList cap, p, ls.get ⟨i, hi⟩⟩]
         | none => []) := by
  induction ls generalizing k anns with
  | nil =>
    intro i hi
    simp at hi
  | cons l rest ih =>
    intro i hi
    rcases hm : matchGhost p l with _ | cap
    · rw [scanLines_cons_none p fpath l rest k hm] at h
      cases i with
      | zero =>
        have hbound := scanLines_lineNumber_bound p fpath rest (k + 1) anns h
        simp only [List.get_eq_getElem, List.getElem_cons_zero, hm]
        refine List.filter_eq_nil_iff.mpr fun a ha => ?_
        have hge := hbound a ha
        simp only [decide_eq_true_eq]
        omega
      | succ j =>
        have hj : j < rest.length := by simpa using hi
        have hrec := ih (k + 1) anns h j hj
        simp only [List.get_eq_getElem, List.getElem_cons_succ]
        rw [show k + (j + 1) + 1 = k + 1 + j + 1 by omega]
        exact hrec
    · by_cases hlong : MAX_COMMENT_LENGTH < (trimList cap).length
      · rw [scanLines_cons_long p fpath l rest k cap hm hlong] at h
        exact absurd h (by simp)
      · rw [scanLines_cons_short p fpath l rest k cap hm hlong] at h
        rcases hrest : scanLines p fpath rest (k + 1) with e | anns'
        · rw [hrest] at h
          exact absurd h (by simp [Except.map])
        · rw [hrest] at h
          obtain rfl : (⟨fpath, k + 1, trimList cap, p, l⟩ : Annotation) :: anns' = anns := by
            simpa [Except.map] using h
          cases i with
          | zero =>
            have hbound := scanLines_lineNumber_bound p fpath rest (k + 1) anns' hrest
            simp only [List.get_eq_getElem, List.getElem_cons_zero, hm]
            have hnil : List.filter (fun a => decide (a.lineNumber = k + 0 + 1)) anns' = [] :=
              List.filter_eq_nil_iff.mpr fun a ha => by
                have hge := hbound a ha
                simp only [decide_eq_true_eq]
                omega
            rw [List.filter_cons_of_pos (by simp), hnil]
          | succ j =>
            have hj : j < rest.length := by simpa using hi
            have hrec := ih (k + 1) anns' hrest j hj
            simp only [List.get_eq_getElem, List.getElem_cons_succ]
            rw [List.filter_cons_of_neg (by
              intro hx
              simp only [decide_eq_true_eq] at hx
              omega)]
            rw [show k + (j + 1) + 1 = k + 1 + j + 1 by omega]
            exact hrec

/-- **C8, counterexample.**  The unrestricted per-line production claim
fails on a CRLF-style line: `"// x\r"` has the claimed shape — no leading
whitespace, the prefix `//`, one space of inner whitespace, then the
non-empty text `"x\r"` — yet scanning a file made of exactly that line
produces no annotation: the capture `(.+)` of the source regex cannot match
the carriage return (`.` excludes line terminators and `$` anchors at the
end of the string), and `content.split('\n')` leaves such a trailing
carriage return on every line of a CRLF file. -/
theorem claim_C8_counterexample :
    ("// x\r".data = [] ++ "//".data ++ " ".data ++ "x\r".data ∧
      wsOnly [] = true ∧ wsOnly " ".data = true ∧ "x\r".data ≠ ([] : List Char)) ∧
    matchGhost "//".data "// x\r".data = none ∧
    scanFile "//".data "a.ts".data "// x\r".data = .ok [] :=
  ⟨by decide, by decide, rfl⟩

/-- **C8, amended.**  For every non-empty prefix and every line of a
successfully scanned file: if the line has the form `⟨opt. whitespace⟩
⟨prefix⟩⟨opt. whitespace⟩⟨non-empty text free of line terminators⟩`, the
scan produces exactly one annotation for that line, whose `content` is the
text trimmed of surrounding whitespace, whose `lineNumber` is the 1-based
line index and whose `originalLine` is the full raw line; a line not of
this form produces no annotation.  (The `.` of the capture `(.+)` cannot
match the terminators CR, LS, PS, and LF never occurs in a line produced by
`content.split('\n')`.) -/
theorem claim_C8 (p : List Char) (hp : p ≠ []) (fpath content : List Char)
    (anns : List Annotation) (hscan : scanFile p fpath content = .ok anns)
    (i : Nat) (hi : i < (splitNl content).length) :
    (∀ w v t, (splitNl content).get ⟨i, hi⟩ = w ++ p ++ v ++ t → wsOnly w = true →
      wsOnly v = true → t ≠ [] → (∀ c ∈ t, isLineTerm c = false) →
      anns.filter (fun a => a.lineNumber = i + 1) =
        [⟨fpath, i + 1, trimList t, p, (splitNl content).get ⟨i, hi⟩⟩]) ∧
    ((¬ ∃ w v t, (splitNl content).get ⟨i, hi⟩ = w ++ p ++ v ++ t ∧ wsOnly w = true ∧
      wsOnly v = true ∧ t ≠ [] ∧ (∀ c ∈ t, isLineTerm c = false)) →
      anns.filter (fun a => a.lineNumber = i + 1) = []) := by
  have hfilter := scanLines_filter p fpath (splitNl content) 0 anns hscan i hi
  simp only [Nat.zero_add] at hfilter
  constructor
  · intro w v t hline hw hv ht htm
    rcases matchGhost_complete p ((splitNl content).get ⟨i, hi⟩) w v t hline hw hv ht htm
      with ⟨cap, hcap⟩
    rw [hfilter, hcap]
    have htrim := matchGhost_capture_trim p ((splitNl content).get ⟨i, hi⟩) cap w v t
      hcap hline hw hv ht
    simp only [htrim]
  · intro hno
    rcases hm : matchGhost p ((splitNl content).get ⟨i, hi⟩) with _ | cap
    · rw [hfilter, hm]
    · rcases matchGhost_sound p ((splitNl content).get ⟨i, hi⟩) cap hm with
        ⟨w, v, t, hline, hw, hv, ht, htm, _⟩
      exact absurd ⟨w, v, t, hline, hw, hv, ht, htm⟩ hno

/-- Two-line fixture for the per-line claim: a matching line with leading
and inner whitespace, then a non-matching line. -/
def c8content : List Char := "  // hello \nplain".data

/-- The single annotation the fixture scan produces. -/
def c8anns : List Annotation :=
  [⟨"a.ts".data, 1, "hello".data, "//".data, "  // hello ".data⟩]

/-- **C8, witness.**  The per-line theorem at the fixture: line 1
(`"  // hello "` = ws ++ `//` ++ ws ++ `"hello "`) yields exactly one
annotation with content `trim "hello "`, and line 2 (`"plain"`) yields
none. -/
theorem claim_C8_witness :
    ("//".data ≠ ([] : List Char)) ∧
    scanFile "//".data "a.ts".data c8content = .ok c8anns ∧
    (c8anns.filter (fun a => a.lineNumber = 0 + 1) =
      [⟨"a.ts".data, 0 + 1, trimList "hello ".data, "//".data,
        (splitNl c8content).get ⟨0, by decide⟩⟩]) ∧
    (c8anns.filter (fun a => a.lineNumber = 1 + 1) = []) := by
  refine ⟨by decide, rfl, ?_, ?_⟩
  · exact (claim_C8 "//".data (by decide) "a.ts".data c8content c8anns rfl 0
      (by decide)).1 "  ".data " ".data "hello ".data (by decide) (by decide) (by decide)
      (by decide) (by decide)
  · refine (claim_C8 "//".data (by decide) "a.ts".data c8content c8anns rfl 1
      (by decide)).2 ?_
    rintro ⟨w, v, t, hline, hw, hv, ht, htm⟩
    rcases matchGhost_complete "//".data ((splitNl c8content).get ⟨1, by decide⟩) w v t
      hline hw hv ht htm with ⟨cap, hcap⟩
    rw [show matchGhost "//".data ((splitNl c8content).get ⟨1, by decide⟩) = none from
      by decide] at hcap
    exact absurd hcap (by simp)

end GhostComment
